import Mathlib

/-!
# Integer sets (`intset.c`, `intset.h`)

A shallow embedding of the intset of `src/src/intset.c`: a header with the
fields `encoding` and `length` followed by the byte buffer `contents`, which
holds `length` little-endian signed integers of `encoding` bytes each, in
strictly ascending order.

Conventions of the embedding.

* `uint32_t` values are `Nat`, reduced modulo `2^32` wherever the source
  computes them; `int` values are `Int`, obtained from unsigned ones by
  `toInt32`; `int64_t` values are `Int`.
* `contents` is a list of bytes. `intrev32ifbe` and `memrevNNifbe` are the
  identity on a little-endian host and a byte swap on a big-endian one, so on
  both the buffer holds little-endian elements and the header fields hold
  their logical values; the embedding stores exactly that.
* An access outside the buffer is undefined in C. Here a read outside the
  buffer yields no bytes (which decode as 0) and a write outside the buffer is
  dropped. The theorems about element values below the wrap of the buffer
  size do not depend on this choice: their hypotheses keep every access inside
  the buffer. The theorems stated for every set are about header fields and
  return values, which no buffer access changes. The theorems of the section
  on sets at the limit of the 32-bit buffer size evaluate the operations
  where the source writes and reads outside the allocation it has just
  requested for the elements.
-/

namespace Intset

/-! ## Machine integers -/

/-- The value of `sizeof(int16_t)`: the source's `INTSET_ENC_INT16`. -/
def INTSET_ENC_INT16 : Nat := 2

/-- The value of `sizeof(int32_t)`: the source's `INTSET_ENC_INT32`. -/
def INTSET_ENC_INT32 : Nat := 4

/-- The value of `sizeof(int64_t)`: the source's `INTSET_ENC_INT64`. -/
def INTSET_ENC_INT64 : Nat := 8

def INT16_MIN : Int := -32768
def INT16_MAX : Int := 32767
def INT32_MIN : Int := -2147483648
def INT32_MAX : Int := 2147483647
def INT64_MIN : Int := -9223372036854775808
def INT64_MAX : Int := 9223372036854775807

/-- The conversion of an unsigned value to `int` (two's complement, 32 bits). -/
def toInt32 (n : Nat) : Int :=
  if n % 4294967296 < 2147483648 then ((n % 4294967296 : Nat) : Int)
  else ((n % 4294967296 : Nat) : Int) - 4294967296

/-- The conversion of a signed value to `unsigned int` / `uint32_t`. -/
def toUInt32 (i : Int) : Nat := (i % 4294967296).toNat

/-- The low `8 * w` bits of a signed value, as an unsigned number: what a
store into an `intN_t` slot keeps of an `int64_t`. -/
def toUnsigned (w : Nat) (v : Int) : Nat := (v % ((256 ^ w : Nat) : Int)).toNat

/-- The signed reading of an unsigned `8 * w`-bit pattern. -/
def toSigned (w : Nat) (n : Nat) : Int :=
  if 2 * (n % 256 ^ w) < 256 ^ w then ((n % 256 ^ w : Nat) : Int)
  else ((n % 256 ^ w : Nat) : Int) - ((256 ^ w : Nat) : Int)

/-- The `w` little-endian bytes of `n`. -/
def leEncode : Nat → Nat → List Nat
  | 0, _ => []
  | w + 1, n => (n % 256) :: leEncode w (n / 256)

/-- The number a little-endian byte string stands for. -/
def leDecode : List Nat → Nat
  | [] => 0
  | b :: bs => b % 256 + 256 * leDecode bs

/-! ## The byte buffer -/

/-- The `n` bytes of the buffer that start at byte offset `off` (`memcpy` out
of the buffer). -/
def readBytes (buf : List Nat) (off n : Nat) : List Nat :=
  (buf.drop off).take n

/-- The buffer with the bytes `bs` stored from byte offset `off` on. -/
def writeBytes (buf : List Nat) (off : Nat) (bs : List Nat) : List Nat :=
  buf.take off ++ bs.take (buf.length - off) ++ buf.drop (off + bs.length)

/-- Element `pos` of the buffer seen as an array of `w`-byte elements;
`pos` is an `int` in the source. -/
def readAt (buf : List Nat) (pos : Int) (w : Nat) : List Nat :=
  if 0 ≤ pos then readBytes buf (pos.toNat * w) w else []

/-- The store of `bs` into element `pos` of the buffer seen as an array of
`w`-byte elements. -/
def writeAt (buf : List Nat) (pos : Int) (w : Nat) (bs : List Nat) : List Nat :=
  if 0 ≤ pos then writeBytes buf (pos.toNat * w) bs else buf

/-- Modelled from the spec: `zrealloc` of `zmalloc.c`, which is not among the
sources. The spec (External interfaces, allocator collaborator) has
`reallocate(buffer, newBytes)` return a buffer of `newBytes` bytes that
preserves the existing contents up to `min(oldBytes, newBytes)`. Only the
`contents` part is modelled (the 8 header bytes live in the record fields);
bytes gained are 0 here, the source overwrites every one of them before it
reads it. -/
def zrealloc (buf : List Nat) (size : Nat) : List Nat :=
  (buf ++ List.replicate (size - buf.length) 0).take size

/-- The source's `memmove(dst, src, bytes)` inside one buffer: the source
range is read first, then stored, so overlapping ranges are handled. -/
def memmove (buf : List Nat) (dst src bytes : Nat) : List Nat :=
  writeBytes buf dst (readBytes buf src bytes)

/-! ## The intset -/

/-- The source's `struct intset`: `encoding` and `length` are `uint32_t`,
`contents` is the flexible array member `int8_t contents[]`. -/
structure intset where
  encoding : Nat
  length : Nat
  contents : List Nat
deriving DecidableEq

/-- The source's `_intsetValueEncoding`. -/
def _intsetValueEncoding (v : Int) : Nat :=
  if v < INT32_MIN ∨ v > INT32_MAX then INTSET_ENC_INT64
  else if v < INT16_MIN ∨ v > INT16_MAX then INTSET_ENC_INT32
  else INTSET_ENC_INT16

/-- The source's `_intsetGetEncoded`: the value at `pos`, given an encoding. -/
def _intsetGetEncoded (is : intset) (pos : Int) (enc : Nat) : Int :=
  if enc = INTSET_ENC_INT64 then toSigned 8 (leDecode (readAt is.contents pos 8))
  else if enc = INTSET_ENC_INT32 then toSigned 4 (leDecode (readAt is.contents pos 4))
  else toSigned 2 (leDecode (readAt is.contents pos 2))

/-- The source's `_intsetGet`: the value at `pos`, using the configured
encoding. The `enc` parameter of `_intsetGetEncoded` is a `uint8_t`, so the
`uint32_t` encoding field is narrowed to its low 8 bits by the call. -/
def _intsetGet (is : intset) (pos : Int) : Int :=
  _intsetGetEncoded is pos (is.encoding % 256)

/-- The source's `_intsetSet`: set the value at `pos`, using the configured
encoding. -/
def _intsetSet (is : intset) (pos : Int) (value : Int) : intset :=
  if is.encoding = INTSET_ENC_INT64 then
    { is with contents := writeAt is.contents pos 8 (leEncode 8 (toUnsigned 8 value)) }
  else if is.encoding = INTSET_ENC_INT32 then
    { is with contents := writeAt is.contents pos 4 (leEncode 4 (toUnsigned 4 value)) }
  else
    { is with contents := writeAt is.contents pos 2 (leEncode 2 (toUnsigned 2 value)) }

/-- The source's `intsetNew`: an empty intset with the 16-bit encoding. -/
def intsetNew : intset :=
  { encoding := INTSET_ENC_INT16, length := 0, contents := [] }

/-- The source's `intsetResize`: the byte size is computed in `uint32_t`. -/
def intsetResize (is : intset) (len : Nat) : intset :=
  let size := (len * is.encoding) % 4294967296
  { is with contents := zrealloc is.contents size }

/-- The `while (max >= min)` loop of `intsetSearch`, on the state
`(min, max, mid, cur)`; one unit of fuel per iteration. -/
def intsetSearchLoop (is : intset) (value : Int) :
    Nat → Int → Int → Int → Int → Int × Int × Int × Int
  | 0, min, max, mid, cur => (min, max, mid, cur)
  | fuel + 1, min, max, mid, cur =>
    if max ≥ min then
      let mid1 := toInt32 (((toUInt32 min + toUInt32 max) % 4294967296) / 2)
      let cur1 := _intsetGet is mid1
      if value > cur1 then
        intsetSearchLoop is value fuel (toInt32 (toUInt32 (mid1 + 1))) max mid1 cur1
      else if value < cur1 then
        intsetSearchLoop is value fuel min (toInt32 (toUInt32 (mid1 - 1))) mid1 cur1
      else (min, max, mid1, cur1)
    else (min, max, mid, cur)

/-- The source's `intsetSearch`: the returned pair is the `uint8_t` result and
the value stored through `pos`. The loop gets `length` units of fuel; every
iteration shrinks the range `[min, max]`, which starts with `length` indexes
(`intsetSearchLoop_spec` below). -/
def intsetSearch (is : intset) (value : Int) : Nat × Nat :=
  let max := toInt32 ((is.length + 4294967295) % 4294967296)
  if is.length = 0 then (0, 0)
  else if value > _intsetGet is (toInt32 ((is.length + 4294967295) % 4294967296)) then
    (0, is.length)
  else if value < _intsetGet is 0 then (0, 0)
  else
    let r := intsetSearchLoop is value is.length 0 max (-1) (-1)
    if value = r.2.2.2 then (1, toUInt32 r.2.2.1) else (0, toUInt32 r.1)

/-- The `while (length--)` loop of `intsetUpgradeAndAdd`: the elements are
re-encoded from the highest index down. -/
def intsetUpgradeLoop (curenc : Nat) (prepend : Int) : Nat → intset → intset
  | 0, is => is
  | length + 1, is =>
    intsetUpgradeLoop curenc prepend length
      (_intsetSet is ((length : Int) + prepend) (_intsetGetEncoded is (length : Int) curenc))

/-- The source's `intsetUpgradeAndAdd`. The loop counter is the `int` copy of
`length`; a negative copy (a length of `2^31` or more) makes the source's
loop overflow the counter, and is given no iteration here. -/
def intsetUpgradeAndAdd (is : intset) (value : Int) : intset :=
  let curenc := is.encoding % 256
  let newenc := _intsetValueEncoding value
  let length := toInt32 is.length
  let prepend : Int := if value < 0 then 1 else 0
  let is1 := { is with encoding := newenc }
  let is2 := intsetResize is1 ((is1.length + 1) % 4294967296)
  let is3 := intsetUpgradeLoop curenc prepend length.toNat is2
  let is4 :=
    if prepend ≠ 0 then _intsetSet is3 0 value
    else _intsetSet is3 (toInt32 is3.length) value
  { is4 with length := (is4.length + 1) % 4294967296 }

/-- The source's `intsetMoveTail`. -/
def intsetMoveTail (is : intset) (src dst : Nat) : intset :=
  let bytes := (is.length + 4294967296 - src % 4294967296) % 4294967296
  if is.encoding = INTSET_ENC_INT64 then
    { is with contents := memmove is.contents (dst * 8) (src * 8) ((bytes * 8) % 4294967296) }
  else if is.encoding = INTSET_ENC_INT32 then
    { is with contents := memmove is.contents (dst * 4) (src * 4) ((bytes * 4) % 4294967296) }
  else
    { is with contents := memmove is.contents (dst * 2) (src * 2) ((bytes * 2) % 4294967296) }

/-- The source's `intsetAdd`: the returned pair is the new handle and the
value stored through `success`. -/
def intsetAdd (is : intset) (value : Int) : intset × Nat :=
  let valenc := _intsetValueEncoding value
  if valenc > is.encoding then (intsetUpgradeAndAdd is value, 1)
  else
    let r := intsetSearch is value
    if r.1 ≠ 0 then (is, 0)
    else
      let pos := r.2
      let is1 := intsetResize is ((is.length + 1) % 4294967296)
      let is2 := if pos < is1.length then intsetMoveTail is1 pos ((pos + 1) % 4294967296) else is1
      let is3 := _intsetSet is2 (toInt32 pos) value
      ({ is3 with length := (is3.length + 1) % 4294967296 }, 1)

/-- The source's `intsetRemove`: the returned pair is the new handle and the
value stored through `success`. -/
def intsetRemove (is : intset) (value : Int) : intset × Nat :=
  let valenc := _intsetValueEncoding value
  let r := intsetSearch is value
  if valenc ≤ is.encoding ∧ r.1 ≠ 0 then
    let pos := r.2
    let len := is.length
    let len1 := (len + 4294967295) % 4294967296
    let is1 := if pos < len1 then intsetMoveTail is ((pos + 1) % 4294967296) pos else is
    let is2 := intsetResize is1 len1
    ({ is2 with length := len1 }, 1)
  else (is, 0)

/-- The source's `intsetFind`. -/
def intsetFind (is : intset) (value : Int) : Nat :=
  let valenc := _intsetValueEncoding value
  if valenc ≤ is.encoding ∧ (intsetSearch is value).1 ≠ 0 then 1 else 0

/-- The source's `intsetGet`: the returned pair is the `uint8_t` result and
the content of `*value` after the call, `value` being its content before. -/
def intsetGet (is : intset) (pos : Nat) (value : Int) : Nat × Int :=
  if pos < is.length then (1, _intsetGet is (toInt32 pos)) else (0, value)

/-- The source's `intsetLen`. -/
def intsetLen (is : intset) : Nat := is.length

/-- The element sequence of a set: the values `_intsetGet` reads at the
indexes `0 .. length - 1`. -/
def intsetElems (is : intset) : List Int :=
  (List.range is.length).map (fun i => _intsetGet is (toInt32 i))

/-! ## Well-formed sets and sequences of operations -/

/-- The encoding field holds one of the three encodings. -/
def validEnc (enc : Nat) : Prop :=
  enc = INTSET_ENC_INT16 ∨ enc = INTSET_ENC_INT32 ∨ enc = INTSET_ENC_INT64

/-- The element size `_intsetGetEncoded` and `_intsetSet` use for an encoding
field: 8 and 4 are recognised, anything else is read as 16-bit. -/
def encWidth (enc : Nat) : Nat :=
  if enc = INTSET_ENC_INT64 then 8 else if enc = INTSET_ENC_INT32 then 4 else 2

/-- A value is representable at an encoding: it is an `int64_t` and its
required encoding is at most the given one. -/
def fitsEnc (enc : Nat) (v : Int) : Prop :=
  INT64_MIN ≤ v ∧ v ≤ INT64_MAX ∧ _intsetValueEncoding v ≤ enc

/-- A well-formed set: the encoding is one of the three, the buffer holds
exactly `length` elements of that size, its byte size is one `intsetResize`
can have computed (a `uint32_t`), and the elements read at the set's encoding
are strictly ascending. Every element read at the set's encoding is
representable at it (`intsetElems_fits`). -/
def intsetWF (is : intset) : Prop :=
  validEnc is.encoding ∧
  is.contents.length = is.length * is.encoding ∧
  is.length * is.encoding < 4294967296 ∧
  (intsetElems is).Pairwise (· < ·)

/-- One more element fits: the byte size of the buffer grown for `value`, at
the encoding the set has after the add, does not wrap in the `uint32_t` that
`intsetResize` computes it in. -/
def intsetRoom (is : intset) (value : Int) : Prop :=
  (is.length + 1) * max is.encoding (_intsetValueEncoding value) < 4294967296

/-- A value of type `int64_t`. -/
def isInt64 (v : Int) : Prop := INT64_MIN ≤ v ∧ v ≤ INT64_MAX

/-- A call of one of the two mutating operations of `intset.h`. -/
inductive IntsetOp where
  | add (value : Int)
  | remove (value : Int)
deriving DecidableEq

/-- The argument of a call. -/
def IntsetOp.value : IntsetOp → Int
  | .add v => v
  | .remove v => v

/-- The handle a call returns. -/
def applyOp (is : intset) : IntsetOp → intset
  | .add v => (intsetAdd is v).1
  | .remove v => (intsetRemove is v).1

/-- The set a sequence of calls builds from `intsetNew`. -/
def runOps (ops : List IntsetOp) : intset :=
  ops.foldl applyOp intsetNew

/-- Adding the values one by one with `intsetAdd`: the resulting handle and
the number of adds that reported success. -/
def intsetAddAll (is : intset) : List Int → intset × Nat
  | [] => (is, 0)
  | v :: vs =>
    let r := intsetAdd is v
    let t := intsetAddAll r.1 vs
    (t.1, r.2 + t.2)

instance (enc : Nat) : Decidable (validEnc enc) := by
  unfold validEnc; infer_instance

instance (is : intset) : Decidable (intsetWF is) := by
  unfold intsetWF; infer_instance

instance (is : intset) (v : Int) : Decidable (intsetRoom is v) := by
  unfold intsetRoom; infer_instance

instance (v : Int) : Decidable (isInt64 v) := by
  unfold isInt64; infer_instance

instance (enc : Nat) (v : Int) : Decidable (fitsEnc enc v) := by
  unfold fitsEnc; infer_instance

/-- The list `[f 0, .., f (n - 1)]`. -/
def listOf (f : Nat → Int) (n : Nat) : List Int := (List.range n).map f

/-- A 16-bit set holding 4, 5 and 6. -/
def exampleSet : intset :=
  { encoding := INTSET_ENC_INT16, length := 3, contents := [4, 0, 5, 0, 6, 0] }

/-- The source's `intsetBlobLen`: `sizeof(intset)` is 8, the product of the
two `uint32_t` header fields is computed in 32-bit unsigned arithmetic and
then added as a `size_t` (64 bits). -/
def intsetBlobLen (is : intset) : Nat :=
  8 + (is.length * is.encoding) % 4294967296

/-- The structure `intsetUpgradeAndAdd` passes to `intsetResize`: the source
stores the new encoding first ("First set new encoding and resize"). -/
def intsetUpgradeAndAddResizeArg (is : intset) (value : Int) : intset :=
  { is with encoding := _intsetValueEncoding value }

/-- The part of `intsetUpgradeAndAdd` after the call of `intsetResize`, run on
the handle `is2` that the call returned; `is` is the set as it was passed in,
from which `curenc` and `length` were read before. -/
def intsetUpgradeAndAddFinish (is : intset) (value : Int) (is2 : intset) : intset :=
  let curenc := is.encoding % 256
  let length := toInt32 is.length
  let prepend : Int := if value < 0 then 1 else 0
  let is3 := intsetUpgradeLoop curenc prepend length.toNat is2
  let is4 :=
    if prepend ≠ 0 then _intsetSet is3 0 value
    else _intsetSet is3 (toInt32 is3.length) value
  { is4 with length := (is4.length + 1) % 4294967296 }

/-- The part of the ordinary insert path of `intsetAdd` after the call of
`intsetResize`, run on the handle `is1` that the call returned. -/
def intsetAddFinish (value : Int) (pos : Nat) (is1 : intset) : intset × Nat :=
  let is2 := if pos < is1.length then intsetMoveTail is1 pos ((pos + 1) % 4294967296) else is1
  let is3 := _intsetSet is2 (toInt32 pos) value
  ({ is3 with length := (is3.length + 1) % 4294967296 }, 1)

/-- The structure `intsetRemove` passes to `intsetResize` when the value was
found at `pos`: the tail has been moved down already ("Overwrite value with
tail and update length"). -/
def intsetRemoveResizeArg (is : intset) (pos : Nat) : intset :=
  if pos < (is.length + 4294967295) % 4294967296 then
    intsetMoveTail is ((pos + 1) % 4294967296) pos
  else is

/-- The 4-byte little-endian elements `base, base + 1, .., base + n - 1`, one
after the other. -/
def encodeFrom (base : Nat) : Nat → List Nat
  | 0 => []
  | n + 1 => encodeFrom base n ++ leEncode 4 (base + n)

/-- The 32-bit set that holds the `n` values `base, base + 1, ..`. -/
def rangeSet (base n : Nat) : intset :=
  { encoding := INTSET_ENC_INT32, length := n, contents := encodeFrom base n }

/-- The values `base, base + 1, .., base + n - 1`, in this order. -/
def rangeValues (base n : Nat) : List Int :=
  (List.range n).map (fun i => ((base + i : Nat) : Int))

/-! ## Bytes -/

theorem leEncode_length (w n : Nat) : (leEncode w n).length = w := by
  induction w generalizing n with
  | zero => rfl
  | succ w ih => simp [leEncode, ih]

theorem leDecode_leEncode (w n : Nat) : leDecode (leEncode w n) = n % 256 ^ w := by
  induction w generalizing n with
  | zero => simp [leEncode, leDecode, Nat.mod_one]
  | succ w ih =>
    simp only [leEncode, leDecode, ih, Nat.mod_mod]
    rw [pow_succ, Nat.mul_comm (256 ^ w) 256, Nat.mod_mul]

theorem readBytes_getElem? (buf : List Nat) (off n i : Nat) :
    (readBytes buf off n)[i]? = if i < n then buf[off + i]? else none := by
  unfold readBytes
  by_cases h : i < n
  · simp [h, List.getElem?_take, List.getElem?_drop]
  · simp [h, List.getElem?_take]

theorem writeBytes_length (buf : List Nat) (off : Nat) (bs : List Nat) :
    (writeBytes buf off bs).length = buf.length := by
  unfold writeBytes
  simp only [List.length_append, List.length_take, List.length_drop]
  omega

theorem writeBytes_getElem? (buf : List Nat) (off : Nat) (bs : List Nat) (i : Nat) :
    (writeBytes buf off bs)[i]? =
      if off ≤ i ∧ i < off + bs.length ∧ i < buf.length then bs[i - off]? else buf[i]? := by
  unfold writeBytes
  rw [List.append_assoc]
  by_cases h1 : i < off
  · have h7 : ¬ (off ≤ i ∧ i < off + bs.length ∧ i < buf.length) := by omega
    rw [if_neg h7]
    by_cases h2 : i < buf.length
    · have h3 : i < (List.take off buf).length := by rw [List.length_take]; omega
      rw [List.getElem?_append_left h3, List.getElem?_take_of_lt h1]
    · have h3 : (List.take off buf).length ≤ i := by rw [List.length_take]; omega
      rw [List.getElem?_eq_none (l := buf) (by omega)]
      apply List.getElem?_eq_none
      simp only [List.length_append, List.length_take, List.length_drop]
      omega
  · have h3 : (List.take off buf).length ≤ i := by rw [List.length_take]; omega
    rw [List.getElem?_append_right h3]
    have hl : (List.take off buf).length = min off buf.length := List.length_take ..
    by_cases h4 : i < off + bs.length ∧ i < buf.length
    · have h7 : off ≤ i ∧ i < off + bs.length ∧ i < buf.length := by omega
      rw [if_pos h7]
      have h5 : i - (List.take off buf).length = i - off := by omega
      have h6 : i - off < (List.take (buf.length - off) bs).length := by
        rw [List.length_take]; omega
      rw [h5, List.getElem?_append_left h6, List.getElem?_take_of_lt (by omega)]
    · have h7 : ¬ (off ≤ i ∧ i < off + bs.length ∧ i < buf.length) := by omega
      rw [if_neg h7]
      by_cases h8 : i < buf.length
      · have h9 : off + bs.length ≤ i := by omega
        have h10 : (List.take (buf.length - off) bs).length = bs.length := by
          rw [List.length_take]; omega
        rw [List.getElem?_append_right (by omega), List.getElem?_drop, h10, hl]
        congr 1; omega
      · rw [List.getElem?_eq_none (l := buf) (by omega)]
        apply List.getElem?_eq_none
        simp only [List.length_append, List.length_take, List.length_drop]
        omega

theorem readBytes_congr (l l' : List Nat) (a n : Nat)
    (h : ∀ i, i < n → l[a + i]? = l'[a + i]?) : readBytes l a n = readBytes l' a n := by
  apply List.ext_getElem?
  intro i
  rw [readBytes_getElem?, readBytes_getElem?]
  by_cases hi : i < n
  · simp only [hi, if_true]; exact h i hi
  · simp only [hi, if_false]

theorem readBytes_length (buf : List Nat) (off n : Nat) (h : off + n ≤ buf.length) :
    (readBytes buf off n).length = n := by
  unfold readBytes
  rw [List.length_take, List.length_drop]; omega

theorem readBytes_writeBytes_same (buf : List Nat) (off : Nat) (bs : List Nat)
    (h : off + bs.length ≤ buf.length) :
    readBytes (writeBytes buf off bs) off bs.length = bs := by
  apply List.ext_getElem?
  intro i
  rw [readBytes_getElem?, writeBytes_getElem?]
  by_cases hi : i < bs.length
  · have : off ≤ off + i ∧ off + i < off + bs.length ∧ off + i < buf.length := by omega
    rw [if_pos hi, if_pos this]; congr 1; omega
  · rw [if_neg hi, List.getElem?_eq_none (by omega)]

theorem readBytes_writeBytes_disjoint (buf : List Nat) (off : Nat) (bs : List Nat) (a n : Nat)
    (h : a + n ≤ off ∨ off + bs.length ≤ a) :
    readBytes (writeBytes buf off bs) a n = readBytes buf a n := by
  apply readBytes_congr
  intro i hi
  rw [writeBytes_getElem?]
  have : ¬ (off ≤ a + i ∧ a + i < off + bs.length ∧ a + i < buf.length) := by omega
  rw [if_neg this]

theorem zrealloc_length (buf : List Nat) (size : Nat) : (zrealloc buf size).length = size := by
  unfold zrealloc
  rw [List.length_take, List.length_append, List.length_replicate]; omega

theorem zrealloc_getElem? (buf : List Nat) (size i : Nat) (h : i < buf.length) (h2 : i < size) :
    (zrealloc buf size)[i]? = buf[i]? := by
  unfold zrealloc
  rw [List.getElem?_take_of_lt h2, List.getElem?_append_left h]

theorem readBytes_zrealloc (buf : List Nat) (size a n : Nat)
    (h : a + n ≤ buf.length) (h2 : a + n ≤ size) :
    readBytes (zrealloc buf size) a n = readBytes buf a n := by
  apply readBytes_congr
  intro i hi
  exact zrealloc_getElem? buf size (a + i) (by omega) (by omega)

theorem memmove_length (buf : List Nat) (d s m : Nat) : (memmove buf d s m).length = buf.length := by
  unfold memmove; exact writeBytes_length ..

/-- Reading inside the destination range of a `memmove` gives the bytes of the
source range. -/
theorem readBytes_memmove_inside (buf : List Nat) (d s m k n : Nat)
    (hs : s + m ≤ buf.length) (hd : d + m ≤ buf.length) (hk : k + n ≤ m) :
    readBytes (memmove buf d s m) (d + k) n = readBytes buf (s + k) n := by
  apply List.ext_getElem?
  intro i
  unfold memmove
  rw [readBytes_getElem?, readBytes_getElem?, writeBytes_getElem?, readBytes_length _ _ _ hs]
  by_cases hi : i < n
  · have : d ≤ d + k + i ∧ d + k + i < d + m ∧ d + k + i < buf.length := by omega
    rw [if_pos hi, if_pos hi, if_pos this, readBytes_getElem?, if_pos (by omega)]
    congr 1; omega
  · rw [if_neg hi, if_neg hi]

theorem readBytes_memmove_outside (buf : List Nat) (d s m a n : Nat)
    (h : a + n ≤ d ∨ d + m ≤ a) :
    readBytes (memmove buf d s m) a n = readBytes buf a n := by
  unfold memmove
  apply readBytes_congr
  intro i hi
  rw [writeBytes_getElem?]
  have hl : (readBytes buf s m).length ≤ m := by
    unfold readBytes; rw [List.length_take]; omega
  have : ¬ (d ≤ a + i ∧ a + i < d + (readBytes buf s m).length ∧ a + i < buf.length) := by omega
  rw [if_neg this]

/-! ## Elements -/

theorem encWidth_of_valid {enc : Nat} (h : enc = 2 ∨ enc = 4 ∨ enc = 8) : encWidth enc = enc := by
  rcases h with rfl | rfl | rfl <;> rfl

theorem validEnc_mod {enc : Nat} (h : enc = 2 ∨ enc = 4 ∨ enc = 8) : enc % 256 = enc := by
  rcases h with rfl | rfl | rfl <;> rfl

theorem encWidth_cases (enc : Nat) : encWidth enc = 2 ∨ encWidth enc = 4 ∨ encWidth enc = 8 := by
  unfold encWidth
  split
  · right; right; rfl
  · split
    · right; left; rfl
    · left; rfl

theorem _intsetGetEncoded_eq (is : intset) (pos : Int) (enc : Nat) :
    _intsetGetEncoded is pos enc
      = toSigned (encWidth enc) (leDecode (readAt is.contents pos (encWidth enc))) := by
  unfold _intsetGetEncoded encWidth
  split
  · rfl
  · split <;> rfl

theorem _intsetSet_eq (is : intset) (pos : Int) (v : Int) :
    _intsetSet is pos v =
      { is with
        contents := writeAt is.contents pos (encWidth is.encoding)
          (leEncode (encWidth is.encoding) (toUnsigned (encWidth is.encoding) v)) } := by
  unfold _intsetSet encWidth
  split
  · rfl
  · split <;> rfl

theorem _intsetSet_encoding (is : intset) (pos v : Int) :
    (_intsetSet is pos v).encoding = is.encoding := by
  rw [_intsetSet_eq]

theorem _intsetSet_length (is : intset) (pos v : Int) :
    (_intsetSet is pos v).length = is.length := by
  rw [_intsetSet_eq]

theorem writeAt_length (buf : List Nat) (pos : Int) (w : Nat) (bs : List Nat) :
    (writeAt buf pos w bs).length = buf.length := by
  unfold writeAt
  split
  · exact writeBytes_length ..
  · rfl

theorem _intsetSet_contents_length (is : intset) (pos v : Int) :
    (_intsetSet is pos v).contents.length = is.contents.length := by
  rw [_intsetSet_eq]; exact writeAt_length ..

theorem readAt_nat (buf : List Nat) (i w : Nat) :
    readAt buf (i : Int) w = readBytes buf (i * w) w := by
  unfold readAt
  rw [if_pos (Int.ofNat_nonneg i), Int.toNat_ofNat]

theorem writeAt_nat (buf : List Nat) (i w : Nat) (bs : List Nat) :
    writeAt buf (i : Int) w bs = writeBytes buf (i * w) bs := by
  unfold writeAt
  rw [if_pos (Int.ofNat_nonneg i), Int.toNat_ofNat]

theorem toInt32_of_lt {n : Nat} (h : n < 2147483648) : toInt32 n = (n : Int) := by
  unfold toInt32
  have : n % 4294967296 = n := Nat.mod_eq_of_lt (by omega)
  rw [this, if_pos h]

theorem toUInt32_nat {n : Nat} (h : n < 4294967296) : toUInt32 (n : Int) = n := by
  unfold toUInt32
  omega

theorem toSigned_toUnsigned {enc : Nat} {v : Int} (he : enc = 2 ∨ enc = 4 ∨ enc = 8)
    (h : fitsEnc enc v) :
    toSigned (encWidth enc)
      (leDecode (leEncode (encWidth enc) (toUnsigned (encWidth enc) v))) = v := by
  rw [leDecode_leEncode]
  obtain ⟨h1, h2, h3⟩ := h
  unfold _intsetValueEncoding INT32_MIN INT32_MAX INT16_MIN INT16_MAX INTSET_ENC_INT64
    INTSET_ENC_INT32 INTSET_ENC_INT16 at h3
  unfold INT64_MIN at h1
  unfold INT64_MAX at h2
  unfold toSigned toUnsigned
  rcases he with rfl | rfl | rfl <;> simp only [encWidth, INTSET_ENC_INT64, INTSET_ENC_INT32] <;>
    norm_num <;> split_ifs at h3 ⊢ <;> omega

theorem toSigned_fits {enc : Nat} (h : enc = 2 ∨ enc = 4 ∨ enc = 8) (n : Nat) :
    fitsEnc enc (toSigned (encWidth enc) n) := by
  unfold fitsEnc _intsetValueEncoding INT32_MIN INT32_MAX INT16_MIN INT16_MAX INTSET_ENC_INT64
    INTSET_ENC_INT32 INTSET_ENC_INT16 INT64_MIN INT64_MAX toSigned
  rcases h with rfl | rfl | rfl <;> simp only [encWidth, INTSET_ENC_INT64, INTSET_ENC_INT32] <;>
    norm_num <;> split_ifs <;> omega

theorem validEnc_cases {enc : Nat} (h : validEnc enc) : enc = 2 ∨ enc = 4 ∨ enc = 8 := h

theorem get_set_same (is : intset) (p : Nat) (v : Int) (he : validEnc is.encoding)
    (hv : fitsEnc is.encoding v) (hb : p * is.encoding + is.encoding ≤ is.contents.length) :
    _intsetGetEncoded (_intsetSet is (p : Int) v) (p : Int) is.encoding = v := by
  rw [_intsetGetEncoded_eq, _intsetSet_eq]
  simp only
  rw [readAt_nat, writeAt_nat]
  have hw := encWidth_of_valid he
  have h := readBytes_writeBytes_same is.contents (p * encWidth is.encoding)
    (leEncode (encWidth is.encoding) (toUnsigned (encWidth is.encoding) v))
    (by rw [leEncode_length, hw]; exact hb)
  rw [leEncode_length] at h
  rw [h]
  exact toSigned_toUnsigned he hv

theorem get_set_disjoint (is : intset) (p q : Nat) (v : Int) (e : Nat)
    (h : q * encWidth e + encWidth e ≤ p * encWidth is.encoding ∨
      p * encWidth is.encoding + encWidth is.encoding ≤ q * encWidth e) :
    _intsetGetEncoded (_intsetSet is (p : Int) v) (q : Int) e = _intsetGetEncoded is (q : Int) e := by
  rw [_intsetGetEncoded_eq, _intsetGetEncoded_eq, _intsetSet_eq]
  simp only
  rw [readAt_nat, readAt_nat, writeAt_nat, readBytes_writeBytes_disjoint]
  rw [leEncode_length]
  exact h

theorem intsetResize_encoding (is : intset) (len : Nat) :
    (intsetResize is len).encoding = is.encoding := rfl

theorem intsetResize_length (is : intset) (len : Nat) :
    (intsetResize is len).length = is.length := rfl

theorem intsetResize_contents_length (is : intset) (len : Nat) :
    (intsetResize is len).contents.length = (len * is.encoding) % 4294967296 := by
  unfold intsetResize
  exact zrealloc_length ..

theorem get_resize (is : intset) (len q e : Nat)
    (h1 : q * encWidth e + encWidth e ≤ is.contents.length)
    (h2 : q * encWidth e + encWidth e ≤ (len * is.encoding) % 4294967296) :
    _intsetGetEncoded (intsetResize is len) (q : Int) e = _intsetGetEncoded is (q : Int) e := by
  rw [_intsetGetEncoded_eq, _intsetGetEncoded_eq]
  unfold intsetResize
  simp only
  rw [readAt_nat, readAt_nat, readBytes_zrealloc _ _ _ _ h1 h2]

theorem intsetMoveTail_eq (is : intset) (src dst : Nat) :
    intsetMoveTail is src dst =
      { is with
        contents := memmove is.contents (dst * encWidth is.encoding) (src * encWidth is.encoding)
          ((((is.length + 4294967296 - src % 4294967296) % 4294967296) * encWidth is.encoding)
            % 4294967296) } := by
  unfold intsetMoveTail encWidth
  split
  · rfl
  · split <;> rfl

theorem intsetMoveTail_encoding (is : intset) (src dst : Nat) :
    (intsetMoveTail is src dst).encoding = is.encoding := by
  rw [intsetMoveTail_eq]

theorem intsetMoveTail_length (is : intset) (src dst : Nat) :
    (intsetMoveTail is src dst).length = is.length := by
  rw [intsetMoveTail_eq]

theorem intsetMoveTail_contents_length (is : intset) (src dst : Nat) :
    (intsetMoveTail is src dst).contents.length = is.contents.length := by
  rw [intsetMoveTail_eq]; exact memmove_length ..

/-- The byte count `intsetMoveTail` computes, when nothing wraps. -/
theorem moveTail_bytes (len src w : Nat) (hs : src ≤ len) (hl : len * w < 4294967296)
    (hw : 0 < w) :
    (((len + 4294967296 - src % 4294967296) % 4294967296) * w) % 4294967296
      = (len - src) * w := by
  have h1 : len ≤ len * w := Nat.le_mul_of_pos_right len hw
  have h2 : src % 4294967296 = src := Nat.mod_eq_of_lt (by omega)
  have h3 : (len + 4294967296 - src) % 4294967296 = len - src := by omega
  rw [h2, h3]
  apply Nat.mod_eq_of_lt
  have : (len - src) * w ≤ len * w := Nat.mul_le_mul_right w (by omega)
  omega

/-- Elements inside the moved block, read at the set's encoding. -/
theorem get_moveTail_inside (is : intset) (src dst k : Nat) (he : validEnc is.encoding)
    (hs : src ≤ is.length) (hl : is.length * is.encoding < 4294967296)
    (hk : k < is.length - src)
    (hb1 : is.length * is.encoding ≤ is.contents.length)
    (hb2 : (dst + (is.length - src)) * is.encoding ≤ is.contents.length) :
    _intsetGet (intsetMoveTail is src dst) ((dst + k : Nat) : Int)
      = _intsetGet is ((src + k : Nat) : Int) := by
  unfold _intsetGet
  rw [intsetMoveTail_encoding, validEnc_mod he, _intsetGetEncoded_eq, _intsetGetEncoded_eq,
    intsetMoveTail_eq]
  simp only
  have hw := encWidth_of_valid he
  rw [hw, readAt_nat, readAt_nat]
  have hpos : 0 < is.encoding := by rcases he with h | h | h <;> rw [h] <;> decide
  rw [moveTail_bytes _ _ _ hs hl hpos, Nat.add_mul, Nat.add_mul]
  rw [readBytes_memmove_inside]
  · have : src * is.encoding + (is.length - src) * is.encoding = is.length * is.encoding := by
      rw [← Nat.add_mul]; congr 1; omega
    omega
  · rw [← Nat.add_mul]; exact hb2
  · have := Nat.mul_le_mul_right is.encoding (show k + 1 ≤ is.length - src by omega)
    rw [Nat.add_mul, Nat.one_mul] at this
    exact this

/-- Elements outside the moved block, read at the set's encoding. -/
theorem get_moveTail_outside (is : intset) (src dst q : Nat) (he : validEnc is.encoding)
    (hs : src ≤ is.length) (hl : is.length * is.encoding < 4294967296)
    (hq : q < dst ∨ dst + (is.length - src) ≤ q) :
    _intsetGet (intsetMoveTail is src dst) (q : Int) = _intsetGet is (q : Int) := by
  unfold _intsetGet
  rw [intsetMoveTail_encoding, validEnc_mod he, _intsetGetEncoded_eq, _intsetGetEncoded_eq,
    intsetMoveTail_eq]
  simp only
  have hw := encWidth_of_valid he
  rw [hw, readAt_nat, readAt_nat]
  have hpos : 0 < is.encoding := by rcases he with h | h | h <;> rw [h] <;> decide
  rw [moveTail_bytes _ _ _ hs hl hpos]
  rw [readBytes_memmove_outside]
  rcases hq with hq | hq
  · left
    have := Nat.mul_le_mul_right is.encoding (show q + 1 ≤ dst by omega)
    rw [Nat.add_mul, Nat.one_mul] at this
    exact this
  · right
    have := Nat.mul_le_mul_right is.encoding hq
    rw [Nat.add_mul] at this
    exact this

/-! ## Search -/

theorem search_mid_eq (lo hi : Int) (h0 : 0 ≤ lo) (h1 : lo ≤ hi) (h2 : hi < 2147483648) :
    toInt32 (((toUInt32 lo + toUInt32 hi) % 4294967296) / 2) = (lo + hi) / 2 := by
  unfold toInt32 toUInt32
  split_ifs <;> omega

theorem toInt32_toUInt32 (i : Int) (h0 : -2147483648 ≤ i) (h1 : i < 2147483648) :
    toInt32 (toUInt32 i) = i := by
  unfold toInt32 toUInt32
  split_ifs <;> omega

/-- The loop of `intsetSearch` on a strictly ascending element sequence: when
it stops with `cur = value`, `mid` is the index of `value`; otherwise `min`
is the insertion index. -/
theorem intsetSearchLoop_spec (is : intset) (value : Int) (n : Nat) (hn : n < 2147483648)
    (hsorted : ∀ i j : Nat, i < j → j < n → _intsetGet is (i : Int) < _intsetGet is (j : Int))
    (fuel : Nat) (lo hi mid cur : Int)
    (h0 : 0 ≤ lo) (h1 : hi < n) (h2 : lo ≤ hi + 1) (hf : hi - lo + 1 ≤ fuel)
    (hlo : ∀ i : Nat, (i : Int) < lo → _intsetGet is (i : Int) < value)
    (hhi : ∀ i : Nat, hi < (i : Int) → i < n → value < _intsetGet is (i : Int))
    (hc : lo ≤ hi ∨ cur ≠ value) :
    let r := intsetSearchLoop is value fuel lo hi mid cur
    (r.2.2.2 = value → ∃ m : Nat, r.2.2.1 = (m : Int) ∧ m < n ∧ _intsetGet is (m : Int) = value) ∧
    (r.2.2.2 ≠ value → ∃ p : Nat, r.1 = (p : Int) ∧ p ≤ n ∧
      (∀ i : Nat, i < p → _intsetGet is (i : Int) < value) ∧
      (∀ i : Nat, p ≤ i → i < n → value < _intsetGet is (i : Int))) := by
  induction fuel generalizing lo hi mid cur with
  | zero =>
    have hlt : hi < lo := by omega
    have hcv : cur ≠ value := by
      rcases hc with hc | hc
      · omega
      · exact hc
    simp only [intsetSearchLoop]
    refine ⟨fun h => absurd h hcv, fun _ => ⟨lo.toNat, by omega, by omega, ?_, ?_⟩⟩
    · intro i hi2; exact hlo i (by omega)
    · intro i hi2 hi3; exact hhi i (by omega) hi3
  | succ fuel ih =>
    simp only [intsetSearchLoop]
    by_cases hge : hi ≥ lo
    · rw [if_pos hge]
      have hmid := search_mid_eq lo hi h0 hge (by omega)
      rw [hmid]
      obtain ⟨m, hm⟩ : ∃ m : Nat, (lo + hi) / 2 = (m : Int) := ⟨((lo + hi) / 2).toNat, by omega⟩
      rw [hm]
      have hmn : m < n := by omega
      by_cases hgt : value > _intsetGet is (m : Int)
      · rw [if_pos hgt, toInt32_toUInt32 _ (by omega) (by omega)]
        apply ih
        · omega
        · exact h1
        · omega
        · omega
        · intro i hi2
          have him : i ≤ m := by omega
          rcases Nat.lt_or_ge i m with h | h
          · exact lt_trans (hsorted i m h hmn) hgt
          · have : i = m := by omega
            rw [this]; exact hgt
        · exact hhi
        · right; exact ne_of_lt hgt
      · rw [if_neg hgt]
        by_cases hlt : value < _intsetGet is (m : Int)
        · rw [if_pos hlt, toInt32_toUInt32 _ (by omega) (by omega)]
          apply ih
          · exact h0
          · omega
          · omega
          · omega
          · exact hlo
          · intro i hi2 hi3
            rcases Nat.lt_or_ge m i with h | h
            · exact lt_trans hlt (hsorted m i h hi3)
            · have : i = m := by omega
              rw [this]; exact hlt
          · right; exact ne_of_gt hlt
        · rw [if_neg hlt]
          have heq : _intsetGet is (m : Int) = value := by omega
          refine ⟨fun _ => ⟨m, rfl, hmn, heq⟩, fun h => absurd heq h⟩
    · rw [if_neg hge]
      have hlt : hi < lo := by omega
      have hcv : cur ≠ value := by
        rcases hc with hc | hc
        · omega
        · exact hc
      refine ⟨fun h => absurd h hcv, fun _ => ⟨lo.toNat, by omega, by omega, ?_, ?_⟩⟩
      · intro i hi2; exact hlo i (by omega)
      · intro i hi2 hi3; exact hhi i (by omega) hi3

theorem intsetElems_length (is : intset) : (intsetElems is).length = is.length := by
  unfold intsetElems; simp

theorem intsetElems_getElem (is : intset) (i : Nat) (h : i < (intsetElems is).length) :
    (intsetElems is)[i] = _intsetGet is (toInt32 i) := by
  unfold intsetElems; simp

theorem intsetWF_length_lt {is : intset} (h : intsetWF is) : is.length < 2147483648 := by
  obtain ⟨he, _, hl, _⟩ := h
  rcases he with he | he | he <;> rw [he] at hl <;>
    simp only [INTSET_ENC_INT16, INTSET_ENC_INT32, INTSET_ENC_INT64] at hl <;> omega

theorem intsetWF_sorted {is : intset} (h : intsetWF is) (i j : Nat) (hij : i < j)
    (hj : j < is.length) : _intsetGet is (i : Int) < _intsetGet is (j : Int) := by
  have hl := intsetWF_length_lt h
  obtain ⟨_, _, _, hs⟩ := h
  rw [List.pairwise_iff_getElem] at hs
  have := hs i j (by rw [intsetElems_length]; omega) (by rw [intsetElems_length]; omega) hij
  rw [intsetElems_getElem, intsetElems_getElem, toInt32_of_lt (by omega),
    toInt32_of_lt (by omega)] at this
  exact this

/-- The result of `intsetSearch` on a well-formed set: either 1 and the index
of the value, or 0 and the insertion index. -/
theorem intsetSearch_spec {is : intset} (h : intsetWF is) (value : Int) :
    ((intsetSearch is value).1 = 1 ∧ (intsetSearch is value).2 < is.length ∧
      _intsetGet is (((intsetSearch is value).2 : Nat) : Int) = value) ∨
    ((intsetSearch is value).1 = 0 ∧ (intsetSearch is value).2 ≤ is.length ∧
      (∀ i : Nat, i < (intsetSearch is value).2 → _intsetGet is (i : Int) < value) ∧
      (∀ i : Nat, (intsetSearch is value).2 ≤ i → i < is.length →
        value < _intsetGet is (i : Int))) := by
  have hl := intsetWF_length_lt h
  have hs := intsetWF_sorted h
  unfold intsetSearch
  simp only
  by_cases h0 : is.length = 0
  · rw [if_pos h0]
    right
    refine ⟨rfl, Nat.zero_le _, ?_, ?_⟩
    · intro i hi; exact absurd hi (Nat.not_lt_zero _)
    · intro i _ hi; omega
  · rw [if_neg h0]
    have hlast : toInt32 ((is.length + 4294967295) % 4294967296) = ((is.length - 1 : Nat) : Int) := by
      have : (is.length + 4294967295) % 4294967296 = is.length - 1 := by omega
      rw [this, toInt32_of_lt (by omega)]
    rw [hlast]
    by_cases h1 : value > _intsetGet is ((is.length - 1 : Nat) : Int)
    · rw [if_pos h1]
      right
      refine ⟨rfl, le_refl _, ?_, ?_⟩
      · intro i hi
        rcases Nat.lt_or_ge i (is.length - 1) with h2 | h2
        · exact lt_trans (hs i (is.length - 1) h2 (by omega)) h1
        · have : i = is.length - 1 := by omega
          rw [this]; exact h1
      · intro i hi1 hi2; omega
    · rw [if_neg h1]
      by_cases h2 : value < _intsetGet is 0
      · rw [if_pos h2]
        right
        refine ⟨rfl, Nat.zero_le _, ?_, ?_⟩
        · intro i hi; exact absurd hi (Nat.not_lt_zero _)
        · intro i _ hi
          rcases Nat.eq_zero_or_pos i with h3 | h3
          · rw [h3]; exact h2
          · have := hs 0 i h3 hi
            exact lt_trans h2 this
      · rw [if_neg h2]
        have hspec := intsetSearchLoop_spec is value is.length hl hs is.length 0
          ((is.length - 1 : Nat) : Int) (-1) (-1) (le_refl _) (by omega) (by omega) (by omega)
          (by intro i hi; omega) (by intro i hi1 hi2; omega) (Or.inl (by omega))
        simp only at hspec
        obtain ⟨hfound, hnot⟩ := hspec
        by_cases h3 : value =
            (intsetSearchLoop is value is.length 0 ((is.length - 1 : Nat) : Int) (-1) (-1)).2.2.2
        · rw [if_pos h3]
          left
          obtain ⟨m, hm1, hm2, hm3⟩ := hfound h3.symm
          simp only
          rw [hm1, toUInt32_nat (by omega)]
          exact ⟨trivial, hm2, hm3⟩
        · rw [if_neg h3]
          right
          obtain ⟨p, hp1, hp2, hp3, hp4⟩ := hnot (fun h => h3 h.symm)
          simp only
          rw [hp1, toUInt32_nat (by omega)]
          exact ⟨trivial, hp2, hp3, hp4⟩

/-! ## Element sequences as index functions -/

theorem listOf_length (f : Nat → Int) (n : Nat) : (listOf f n).length = n := by
  unfold listOf; simp

theorem listOf_getElem? (f : Nat → Int) (n i : Nat) :
    (listOf f n)[i]? = if i < n then some (f i) else none := by
  unfold listOf
  by_cases h : i < n
  · rw [if_pos h, List.getElem?_map, List.getElem?_range h]; rfl
  · rw [if_neg h]
    apply List.getElem?_eq_none
    simp; omega

theorem listOf_congr (f g : Nat → Int) (n : Nat) (h : ∀ i, i < n → f i = g i) :
    listOf f n = listOf g n := by
  apply List.ext_getElem?
  intro i
  rw [listOf_getElem?, listOf_getElem?]
  by_cases hi : i < n
  · rw [if_pos hi, if_pos hi, h i hi]
  · rw [if_neg hi, if_neg hi]

theorem listOf_insert (f g : Nat → Int) (n p : Nat) (v : Int) (hp : p ≤ n)
    (h1 : ∀ i, i < p → g i = f i) (h2 : g p = v)
    (h3 : ∀ i, p < i → i ≤ n → g i = f (i - 1)) :
    listOf g (n + 1) = (listOf f n).take p ++ v :: (listOf f n).drop p := by
  apply List.ext_getElem?
  intro i
  rw [listOf_getElem?]
  have hlt : ((listOf f n).take p).length = p := by
    rw [List.length_take, listOf_length]; omega
  rcases Nat.lt_trichotomy i p with hi | hi | hi
  · rw [List.getElem?_append_left (by omega), List.getElem?_take_of_lt hi, listOf_getElem?,
      if_pos (by omega), if_pos (by omega), h1 i hi]
  · rw [List.getElem?_append_right (by omega), hlt, hi, Nat.sub_self, if_pos (by omega), h2,
      List.getElem?_cons_zero]
  · rw [List.getElem?_append_right (by omega), hlt]
    obtain ⟨k, hk⟩ : ∃ k, i - p = k + 1 := ⟨i - p - 1, by omega⟩
    rw [hk, List.getElem?_cons_succ, List.getElem?_drop, listOf_getElem?]
    by_cases hin : i < n + 1
    · rw [if_pos hin, if_pos (by omega), h3 i hi (by omega)]
      congr 2; omega
    · rw [if_neg hin, if_neg (by omega)]

theorem listOf_erase (f g : Nat → Int) (n p : Nat) (hp : p < n)
    (h1 : ∀ i, i < p → g i = f i) (h2 : ∀ i, p ≤ i → i + 1 < n → g i = f (i + 1)) :
    listOf g (n - 1) = (listOf f n).take p ++ (listOf f n).drop (p + 1) := by
  apply List.ext_getElem?
  intro i
  rw [listOf_getElem?]
  have hlt : ((listOf f n).take p).length = p := by
    rw [List.length_take, listOf_length]; omega
  rcases Nat.lt_or_ge i p with hi | hi
  · rw [List.getElem?_append_left (by omega), List.getElem?_take_of_lt hi, listOf_getElem?,
      if_pos (by omega), if_pos (by omega), h1 i hi]
  · rw [List.getElem?_append_right (by omega), hlt, List.getElem?_drop, listOf_getElem?]
    by_cases hin : i < n - 1
    · rw [if_pos hin, if_pos (by omega), h2 i hi (by omega)]
      congr 2; omega
    · rw [if_neg hin, if_neg (by omega)]

theorem intsetElems_eq_listOf (is : intset) :
    intsetElems is = listOf (fun i => _intsetGet is (toInt32 i)) is.length := rfl

theorem intsetElems_eq_listOf_nat (is : intset) (h : is.length ≤ 2147483648) :
    intsetElems is = listOf (fun i => _intsetGet is (i : Int)) is.length := by
  rw [intsetElems_eq_listOf]
  apply listOf_congr
  intro i hi
  rw [toInt32_of_lt (by omega)]

/-! ## Reads at the set's own encoding -/

theorem validEnc_pos {enc : Nat} (h : validEnc enc) : 0 < enc := by
  rcases h with h | h | h <;> rw [h] <;> decide

theorem _intsetGet_resize (is : intset) (len q : Nat) (he : validEnc is.encoding)
    (h1 : (q + 1) * is.encoding ≤ is.contents.length)
    (h2 : (q + 1) * is.encoding ≤ (len * is.encoding) % 4294967296) :
    _intsetGet (intsetResize is len) (q : Int) = _intsetGet is (q : Int) := by
  unfold _intsetGet
  rw [intsetResize_encoding, validEnc_mod he]
  have hw := encWidth_of_valid he
  rw [Nat.add_mul, Nat.one_mul] at h1 h2
  exact get_resize is len q is.encoding (by rw [hw]; exact h1) (by rw [hw]; exact h2)

theorem _intsetGet_set_same (is : intset) (p : Nat) (v : Int) (he : validEnc is.encoding)
    (hv : fitsEnc is.encoding v) (hb : (p + 1) * is.encoding ≤ is.contents.length) :
    _intsetGet (_intsetSet is (p : Int) v) (p : Int) = v := by
  unfold _intsetGet
  rw [_intsetSet_encoding, validEnc_mod he]
  rw [Nat.add_mul, Nat.one_mul] at hb
  exact get_set_same is p v he hv hb

theorem _intsetGet_set_other (is : intset) (p q : Nat) (v : Int) (he : validEnc is.encoding)
    (hne : q ≠ p) :
    _intsetGet (_intsetSet is (p : Int) v) (q : Int) = _intsetGet is (q : Int) := by
  unfold _intsetGet
  rw [_intsetSet_encoding, validEnc_mod he]
  apply get_set_disjoint
  rw [encWidth_of_valid he]
  rcases Nat.lt_or_gt_of_ne hne with h | h
  · left
    have := Nat.mul_le_mul_right is.encoding (show q + 1 ≤ p by omega)
    rw [Nat.add_mul, Nat.one_mul] at this
    exact this
  · right
    have := Nat.mul_le_mul_right is.encoding (show p + 1 ≤ q by omega)
    rw [Nat.add_mul, Nat.one_mul] at this
    exact this

theorem _intsetGet_congr (a b : intset) (pos : Int) (h1 : a.encoding = b.encoding)
    (h2 : a.contents = b.contents) : _intsetGet a pos = _intsetGet b pos := by
  unfold _intsetGet _intsetGetEncoded
  rw [h1, h2]

theorem fitsEnc_of_valenc {enc : Nat} {v : Int} (hv : isInt64 v)
    (h : _intsetValueEncoding v ≤ enc) : fitsEnc enc v := ⟨hv.1, hv.2, h⟩

/-! ## `intsetAdd`, ordinary insert path -/

/-- The ordinary insert path of `intsetAdd`: the value is stored at the
insertion index that `intsetSearch` returned and the tail moves up by one. -/
theorem intsetAdd_insert {is : intset} (h : intsetWF is) (v : Int)
    (hv : fitsEnc is.encoding v) (hroom : (is.length + 1) * is.encoding < 4294967296)
    (hs : (intsetSearch is v).1 = 0) :
    (intsetAdd is v).2 = 1 ∧ (intsetAdd is v).1.encoding = is.encoding ∧
    (intsetAdd is v).1.length = is.length + 1 ∧
    (intsetAdd is v).1.contents.length = (is.length + 1) * is.encoding ∧
    intsetElems (intsetAdd is v).1 =
      (intsetElems is).take (intsetSearch is v).2 ++ v :: (intsetElems is).drop (intsetSearch is v).2 := by
  have hl := intsetWF_length_lt h
  have hspec := intsetSearch_spec h v
  obtain ⟨he, hcl, hsz, _⟩ := h
  have hpos := validEnc_pos he
  rcases hspec with ⟨h1, _⟩ | ⟨_, hp, _, _⟩
  · rw [hs] at h1; exact absurd h1 (by decide)
  have hn1 : (is.length + 1) % 4294967296 = is.length + 1 := Nat.mod_eq_of_lt (by omega)
  have hp1 : ((intsetSearch is v).2 + 1) % 4294967296 = (intsetSearch is v).2 + 1 :=
    Nat.mod_eq_of_lt (by omega)
  have hadd : intsetAdd is v =
      ({ _intsetSet (if (intsetSearch is v).2 < is.length then
            intsetMoveTail (intsetResize is (is.length + 1)) (intsetSearch is v).2
              ((intsetSearch is v).2 + 1)
          else intsetResize is (is.length + 1)) ((intsetSearch is v).2 : Int) v with
          length := is.length + 1 }, 1) := by
    unfold intsetAdd
    simp only
    rw [if_neg (by have := hv.2.2; omega), if_neg (by rw [hs]; decide), hn1, hp1,
      toInt32_of_lt (by omega), _intsetSet_length, intsetResize_length]
    split
    · rw [intsetMoveTail_length, intsetResize_length, hn1]
    · rw [intsetResize_length, hn1]
  generalize hpdef : (intsetSearch is v).2 = p at hp hadd ⊢
  -- the resized set
  have hr_len : (intsetResize is (is.length + 1)).contents.length = (is.length + 1) * is.encoding := by
    rw [intsetResize_contents_length, Nat.mod_eq_of_lt hroom]
  have hr_get : ∀ q, q < is.length →
      _intsetGet (intsetResize is (is.length + 1)) (q : Int) = _intsetGet is (q : Int) := by
    intro q hq
    have hle := Nat.mul_le_mul_right is.encoding (show q + 1 ≤ is.length by omega)
    apply _intsetGet_resize is (is.length + 1) q he
    · omega
    · rw [Nat.mod_eq_of_lt hroom]
      exact le_trans hle (Nat.mul_le_mul_right _ (by omega))
  -- the set after the tail move
  obtain ⟨m, hm, hm_enc, hm_len, hm_lo, hm_hi⟩ : ∃ m : intset,
      (if p < is.length then intsetMoveTail (intsetResize is (is.length + 1)) p (p + 1)
        else intsetResize is (is.length + 1)) = m ∧
      m.encoding = is.encoding ∧ m.contents.length = (is.length + 1) * is.encoding ∧
      (∀ q, q < p → _intsetGet m (q : Int) = _intsetGet is (q : Int)) ∧
      (∀ q, p < q → q ≤ is.length → _intsetGet m (q : Int) = _intsetGet is ((q - 1 : Nat) : Int)) := by
    refine ⟨_, rfl, ?_, ?_, ?_, ?_⟩
    · split
      · rw [intsetMoveTail_encoding, intsetResize_encoding]
      · rw [intsetResize_encoding]
    · split
      · rw [intsetMoveTail_contents_length, hr_len]
      · exact hr_len
    · intro q hq
      split
      · rw [get_moveTail_outside (intsetResize is (is.length + 1)) p (p + 1) q he hp hsz
          (Or.inl (by omega))]
        exact hr_get q (by omega)
      · exact hr_get q (by omega)
    · intro q hq1 hq2
      split
      · have hq : q = p + 1 + (q - p - 1) := by omega
        have := get_moveTail_inside (intsetResize is (is.length + 1)) p (p + 1) (q - p - 1) he hp hsz
          (by rw [intsetResize_length]; omega)
          (by rw [intsetResize_length, hr_len]; exact Nat.mul_le_mul_right _ (by omega))
          (by rw [intsetResize_length, hr_len]; exact Nat.mul_le_mul_right _ (by omega))
        rw [← hq] at this
        rw [this, hr_get _ (by omega)]
        congr 2; omega
      · omega
  rw [hm] at hadd
  rw [hadd]
  refine ⟨rfl, ?_, rfl, ?_, ?_⟩
  · show (_intsetSet m (p : Int) v).encoding = is.encoding
    rw [_intsetSet_encoding, hm_enc]
  · show (_intsetSet m (p : Int) v).contents.length = _
    rw [_intsetSet_contents_length, hm_len]
  · rw [intsetElems_eq_listOf_nat _ (by show is.length + 1 ≤ _; omega),
      intsetElems_eq_listOf_nat is (by omega)]
    show listOf _ (is.length + 1) = _
    have hme : validEnc m.encoding := by rw [hm_enc]; exact he
    apply listOf_insert _ _ _ _ _ hp
    · intro i hi
      show _intsetGet (_intsetSet m (p : Int) v) (i : Int) = _
      rw [_intsetGet_set_other _ _ _ _ hme (by omega), hm_lo i hi]
    · show _intsetGet (_intsetSet m (p : Int) v) (p : Int) = _
      apply _intsetGet_set_same _ _ _ hme (by rw [hm_enc]; exact hv)
      rw [hm_enc, hm_len]
      exact Nat.mul_le_mul_right _ (by omega)
    · intro i hi1 hi2
      show _intsetGet (_intsetSet m (p : Int) v) (i : Int) = _
      rw [_intsetGet_set_other _ _ _ _ hme (by omega), hm_hi i hi1 hi2]

/-! ## `intsetUpgradeAndAdd` -/

theorem fitsEnc_mono {c e : Nat} {v : Int} (h : fitsEnc c v) (hce : c ≤ e) : fitsEnc e v :=
  ⟨h.1, h.2.1, le_trans h.2.2 hce⟩

theorem _intsetGetEncoded_fits (is : intset) (pos : Int) {enc : Nat} (h : validEnc enc) :
    fitsEnc enc (_intsetGetEncoded is pos enc) := by
  rw [_intsetGetEncoded_eq]
  exact toSigned_fits h _

/-- The re-encoding loop of `intsetUpgradeAndAdd`, run from index `k` down:
the elements below `k` are still readable at the old encoding `c`, those from
`k` on have landed at their index plus `pre`, at the new encoding `e`. -/
theorem intsetUpgradeLoop_spec (c e : Nat) (hc : validEnc c) (he : validEnc e) (hce : c < e)
    (pre : Nat) (hpre : pre ≤ 1) (g : Nat → Int) (hg : ∀ j, fitsEnc c (g j)) (N : Nat)
    (k : Nat) (t : intset) (hk : k ≤ N) (hte : t.encoding = e)
    (htl : t.contents.length = (N + 1) * e)
    (hlo : ∀ j, j < k → _intsetGetEncoded t (j : Int) c = g j)
    (hhi : ∀ j, k ≤ j → j < N → _intsetGetEncoded t ((j + pre : Nat) : Int) e = g j) :
    (intsetUpgradeLoop c (pre : Int) k t).encoding = e ∧
    (intsetUpgradeLoop c (pre : Int) k t).length = t.length ∧
    (intsetUpgradeLoop c (pre : Int) k t).contents.length = (N + 1) * e ∧
    ∀ j, j < N → _intsetGetEncoded (intsetUpgradeLoop c (pre : Int) k t) ((j + pre : Nat) : Int) e
      = g j := by
  induction k generalizing t with
  | zero =>
    simp only [intsetUpgradeLoop]
    exact ⟨hte, trivial, htl, fun j hj => hhi j (Nat.zero_le _) hj⟩
  | succ k ih =>
    simp only [intsetUpgradeLoop]
    have hcast : (k : Int) + (pre : Int) = ((k + pre : Nat) : Int) := by push_cast; rfl
    rw [hcast, hlo k (by omega)]
    have hwc := encWidth_of_valid hc
    have hwe := encWidth_of_valid he
    have hvt : validEnc t.encoding := by rw [hte]; exact he
    have key := ih (_intsetSet t ((k + pre : Nat) : Int) (g k)) (by omega)
      (by rw [_intsetSet_encoding, hte]) (by rw [_intsetSet_contents_length, htl])
      (by
        intro j hj
        rw [get_set_disjoint, hlo j (by omega)]
        left
        rw [hte, hwc, hwe]
        rcases hc with h1 | h1 | h1 <;> rcases he with h2 | h2 | h2 <;>
          simp only [h1, h2, INTSET_ENC_INT16, INTSET_ENC_INT32, INTSET_ENC_INT64] at hce ⊢ <;>
          omega)
      (by
        intro j hj1 hj2
        rcases Nat.eq_or_lt_of_le hj1 with h | h
        · rw [← h, ← hte]
          apply get_set_same _ _ _ hvt
          · rw [hte]; exact fitsEnc_mono (hg k) (le_of_lt hce)
          · rw [hte, htl]
            have := Nat.mul_le_mul_right e (show k + pre + 1 ≤ N + 1 by omega)
            rw [Nat.add_mul (k + pre), Nat.one_mul] at this
            exact this
        · rw [get_set_disjoint, hhi j (by omega) hj2]
          right
          rw [hte, hwe]
          have := Nat.mul_le_mul_right e (show k + pre + 1 ≤ j + pre by omega)
          rw [Nat.add_mul (k + pre), Nat.one_mul] at this
          exact this)
    rw [_intsetSet_length] at key
    exact key

theorem _intsetValueEncoding_valid (v : Int) : validEnc (_intsetValueEncoding v) := by
  unfold _intsetValueEncoding validEnc
  split_ifs <;> simp

theorem intsetUpgradeLoop_length (c : Nat) (pre : Int) (k : Nat) (t : intset) :
    (intsetUpgradeLoop c pre k t).length = t.length := by
  induction k generalizing t with
  | zero => rfl
  | succ k ih => simp only [intsetUpgradeLoop]; rw [ih, _intsetSet_length]

/-- The set `intsetUpgradeAndAdd` returns, with the conversions of the header
fields resolved, for a set of fewer than `2^31` elements. -/
theorem intsetUpgradeAndAdd_eq (is : intset) (v : Int) (he : validEnc is.encoding)
    (hl : is.length < 2147483648) :
    intsetUpgradeAndAdd is v =
      { _intsetSet
          (intsetUpgradeLoop is.encoding (((if v < 0 then 1 else 0 : Nat) : Nat) : Int) is.length
            (intsetResize { is with encoding := _intsetValueEncoding v } (is.length + 1)))
          (((if v < 0 then 0 else is.length : Nat) : Nat) : Int) v with
        length := is.length + 1 } := by
  have hcur : is.encoding % 256 = is.encoding := by
    rcases he with h | h | h <;> rw [h] <;> decide
  have hn1 : (is.length + 1) % 4294967296 = is.length + 1 := Nat.mod_eq_of_lt (by omega)
  unfold intsetUpgradeAndAdd
  simp only
  rw [hcur, hn1, toInt32_of_lt hl, Int.toNat_ofNat]
  by_cases hneg : v < 0
  · simp only [hneg, if_true]
    rw [if_pos (by decide), _intsetSet_length, intsetUpgradeLoop_length, intsetResize_length, hn1]
    rfl
  · simp only [hneg, if_false]
    rw [if_neg (by decide), _intsetSet_length, intsetUpgradeLoop_length, intsetResize_length, hn1,
      toInt32_of_lt hl]
    rfl

/-- The upgrade path: the set takes the encoding the value requires, every
element keeps its value and moves up by one index when the value is negative,
and the value is stored in front (negative) or behind (non-negative). -/
theorem intsetUpgradeAndAdd_spec {is : intset} (h : intsetWF is) (v : Int) (hv : isInt64 v)
    (hgt : is.encoding < _intsetValueEncoding v)
    (hroom : (is.length + 1) * _intsetValueEncoding v < 4294967296) :
    (intsetUpgradeAndAdd is v).encoding = _intsetValueEncoding v ∧
    (intsetUpgradeAndAdd is v).length = is.length + 1 ∧
    (intsetUpgradeAndAdd is v).contents.length = (is.length + 1) * _intsetValueEncoding v ∧
    intsetElems (intsetUpgradeAndAdd is v) =
      if v < 0 then v :: intsetElems is else intsetElems is ++ [v] := by
  have hl := intsetWF_length_lt h
  obtain ⟨he, hcl, hsz, _⟩ := h
  have hve := _intsetValueEncoding_valid v
  rw [intsetUpgradeAndAdd_eq is v he hl]
  generalize hpre : (if v < 0 then 1 else 0 : Nat) = pre
  generalize hidx : (if v < 0 then 0 else is.length : Nat) = idx
  have hpre1 : pre ≤ 1 := by rw [← hpre]; split <;> omega
  have hwc := encWidth_of_valid he
  have hwe := encWidth_of_valid hve
  have hloop := intsetUpgradeLoop_spec is.encoding (_intsetValueEncoding v) he hve hgt pre hpre1
    (fun j => _intsetGetEncoded is (j : Int) is.encoding)
    (fun j => _intsetGetEncoded_fits is _ he) is.length is.length
    (intsetResize { is with encoding := _intsetValueEncoding v } (is.length + 1)) (le_refl _)
    rfl (by rw [intsetResize_contents_length]; exact Nat.mod_eq_of_lt hroom)
    (by
      intro j hj
      have h1 := Nat.mul_le_mul_right is.encoding (show j + 1 ≤ is.length by omega)
      rw [Nat.add_mul, Nat.one_mul] at h1
      have h2 : is.length * is.encoding ≤ (is.length + 1) * _intsetValueEncoding v :=
        Nat.mul_le_mul (by omega) (by omega)
      apply get_resize { is with encoding := _intsetValueEncoding v } (is.length + 1) j is.encoding
      · rw [hwc]; show _ ≤ is.contents.length; omega
      · rw [hwc]; show _ ≤ ((is.length + 1) * _intsetValueEncoding v) % 4294967296
        rw [Nat.mod_eq_of_lt hroom]; omega)
    (by intro j hj1 hj2; omega)
  generalize intsetUpgradeLoop is.encoding (pre : Int) is.length
    (intsetResize { is with encoding := _intsetValueEncoding v } (is.length + 1)) = t at hloop ⊢
  obtain ⟨hte, _, htl, htg⟩ := hloop
  have hvt : validEnc t.encoding := by rw [hte]; exact hve
  have hfit : fitsEnc t.encoding v := by rw [hte]; exact ⟨hv.1, hv.2, le_refl _⟩
  have hidx_le : idx ≤ is.length := by rw [← hidx]; split <;> omega
  refine ⟨?_, rfl, ?_, ?_⟩
  · show (_intsetSet t (idx : Int) v).encoding = _
    rw [_intsetSet_encoding, hte]
  · show (_intsetSet t (idx : Int) v).contents.length = _
    rw [_intsetSet_contents_length, htl]
  · rw [intsetElems_eq_listOf_nat _ (by show is.length + 1 ≤ _; omega),
      intsetElems_eq_listOf_nat is (by omega)]
    show listOf (fun i => _intsetGet (_intsetSet t (idx : Int) v) (i : Int)) (is.length + 1) = _
    have hins := listOf_insert (fun i => _intsetGet is (i : Int))
      (fun i => _intsetGet (_intsetSet t (idx : Int) v) (i : Int)) is.length idx v hidx_le
      (by
        intro i hi
        by_cases hneg : v < 0
        · rw [if_pos hneg] at hidx; omega
        · rw [if_neg hneg] at hidx hpre
          show _intsetGet (_intsetSet t (idx : Int) v) (i : Int) = _
          rw [_intsetGet_set_other _ _ _ _ hvt (by omega)]
          have := htg i (by omega)
          rw [← hpre, Nat.add_zero] at this
          unfold _intsetGet
          rw [hte, validEnc_mod hve, validEnc_mod he, this])
      (by
        show _intsetGet (_intsetSet t (idx : Int) v) (idx : Int) = v
        apply _intsetGet_set_same _ _ _ hvt hfit
        rw [hte, htl]
        exact Nat.mul_le_mul_right _ (by omega))
      (by
        intro i hi1 hi2
        by_cases hneg : v < 0
        · rw [if_pos hneg] at hidx hpre
          show _intsetGet (_intsetSet t (idx : Int) v) (i : Int) = _
          rw [_intsetGet_set_other _ _ _ _ hvt (by omega)]
          have := htg (i - 1) (by omega)
          rw [← hpre, show i - 1 + 1 = i by omega] at this
          unfold _intsetGet
          rw [hte, validEnc_mod hve, validEnc_mod he, this]
        · rw [if_neg hneg] at hidx; omega)
    rw [hins]
    by_cases hneg : v < 0
    · rw [if_pos hneg] at hidx
      rw [if_pos hneg, ← hidx, List.take_zero, List.drop_zero, List.nil_append]
    · rw [if_neg hneg] at hidx
      rw [if_neg hneg, ← hidx, List.take_of_length_le (by rw [listOf_length]),
        List.drop_of_length_le (by rw [listOf_length])]

/-! ## `intsetRemove` -/

/-- The removing path of `intsetRemove`: the element at the index that
`intsetSearch` returned is dropped and the tail moves down by one. -/
theorem intsetRemove_found {is : intset} (h : intsetWF is) (v : Int)
    (hv : _intsetValueEncoding v ≤ is.encoding) (hs : (intsetSearch is v).1 = 1) :
    (intsetRemove is v).2 = 1 ∧ (intsetRemove is v).1.encoding = is.encoding ∧
    (intsetRemove is v).1.length = is.length - 1 ∧
    (intsetRemove is v).1.contents.length = (is.length - 1) * is.encoding ∧
    intsetElems (intsetRemove is v).1 =
      (intsetElems is).take (intsetSearch is v).2 ++
        (intsetElems is).drop ((intsetSearch is v).2 + 1) := by
  have hl := intsetWF_length_lt h
  have hspec := intsetSearch_spec h v
  obtain ⟨he, hcl, hsz, _⟩ := h
  rcases hspec with ⟨_, hp, _⟩ | ⟨h0, _⟩
  swap
  · rw [hs] at h0; exact absurd h0 (by decide)
  have hn1 : (is.length + 4294967295) % 4294967296 = is.length - 1 := by omega
  have hp1 : ((intsetSearch is v).2 + 1) % 4294967296 = (intsetSearch is v).2 + 1 :=
    Nat.mod_eq_of_lt (by omega)
  have hle : (is.length - 1) * is.encoding ≤ is.length * is.encoding :=
    Nat.mul_le_mul_right _ (by omega)
  have hrem : intsetRemove is v =
      ({ intsetResize (if (intsetSearch is v).2 < is.length - 1 then
            intsetMoveTail is ((intsetSearch is v).2 + 1) (intsetSearch is v).2
          else is) (is.length - 1) with
          length := is.length - 1 }, 1) := by
    unfold intsetRemove
    simp only
    rw [if_pos ⟨hv, by rw [hs]; decide⟩, hn1, hp1]
  generalize hpdef : (intsetSearch is v).2 = p at hp hrem ⊢
  obtain ⟨m, hm, hm_enc, hm_len, hm_lo, hm_hi⟩ : ∃ m : intset,
      (if p < is.length - 1 then intsetMoveTail is (p + 1) p else is) = m ∧
      m.encoding = is.encoding ∧ m.contents.length = is.length * is.encoding ∧
      (∀ q, q < p → _intsetGet m (q : Int) = _intsetGet is (q : Int)) ∧
      (∀ q, p ≤ q → q + 1 < is.length →
        _intsetGet m (q : Int) = _intsetGet is ((q + 1 : Nat) : Int)) := by
    refine ⟨_, rfl, ?_, ?_, ?_, ?_⟩
    · split
      · rw [intsetMoveTail_encoding]
      · rfl
    · split
      · rw [intsetMoveTail_contents_length, hcl]
      · exact hcl
    · intro q hq
      split
      · exact get_moveTail_outside is (p + 1) p q he (by omega) hsz (Or.inl hq)
      · rfl
    · intro q hq1 hq2
      split
      · have hq : q = p + (q - p) := by omega
        have := get_moveTail_inside is (p + 1) p (q - p) he (by omega) hsz (by omega)
          (by rw [hcl]) (by rw [hcl]; exact Nat.mul_le_mul_right _ (by omega))
        rw [← hq] at this
        rw [this, show p + 1 + (q - p) = q + 1 by omega]
      · omega
  rw [hm] at hrem
  rw [hrem]
  have hme : validEnc m.encoding := by rw [hm_enc]; exact he
  refine ⟨rfl, ?_, rfl, ?_, ?_⟩
  · show (intsetResize m (is.length - 1)).encoding = _
    rw [intsetResize_encoding, hm_enc]
  · show (intsetResize m (is.length - 1)).contents.length = _
    rw [intsetResize_contents_length, hm_enc, Nat.mod_eq_of_lt (by omega)]
  · rw [intsetElems_eq_listOf_nat _ (by show is.length - 1 ≤ _; omega),
      intsetElems_eq_listOf_nat is (by omega)]
    show listOf (fun i => _intsetGet (intsetResize m (is.length - 1)) (i : Int)) (is.length - 1) = _
    have hres : ∀ q, q + 1 < is.length →
        _intsetGet (intsetResize m (is.length - 1)) (q : Int) = _intsetGet m (q : Int) := by
      intro q hq
      have hq2 := Nat.mul_le_mul_right is.encoding (show q + 1 ≤ is.length - 1 by omega)
      apply _intsetGet_resize m (is.length - 1) q hme
      · rw [hm_enc, hm_len]; omega
      · rw [hm_enc, Nat.mod_eq_of_lt (by omega)]; exact hq2
    apply listOf_erase _ _ _ _ hp
    · intro i hi
      show _intsetGet (intsetResize m (is.length - 1)) (i : Int) = _
      rw [hres i (by omega), hm_lo i hi]
    · intro i hi1 hi2
      show _intsetGet (intsetResize m (is.length - 1)) (i : Int) = _
      rw [hres i hi2, hm_hi i hi1 hi2]

/-- The other path of `intsetRemove`: the handle is returned as it is. -/
theorem intsetRemove_absent (is : intset) (v : Int)
    (hs : is.encoding < _intsetValueEncoding v ∨ (intsetSearch is v).1 = 0) :
    intsetRemove is v = (is, 0) := by
  unfold intsetRemove
  simp only
  rw [if_neg]
  rintro ⟨h1, h2⟩
  rcases hs with hs | hs
  · omega
  · exact h2 hs

/-! ## Membership in element sequences -/

theorem listOf_mem (f : Nat → Int) (n : Nat) (x : Int) :
    x ∈ listOf f n ↔ ∃ i, i < n ∧ f i = x := by
  unfold listOf
  simp [List.mem_map, List.mem_range]

theorem listOf_take (f : Nat → Int) (n p : Nat) (hp : p ≤ n) :
    (listOf f n).take p = listOf f p := by
  apply List.ext_getElem?
  intro i
  rw [listOf_getElem?]
  by_cases hi : i < p
  · rw [List.getElem?_take_of_lt hi, listOf_getElem?, if_pos hi, if_pos (by omega)]
  · rw [if_neg hi]
    apply List.getElem?_eq_none
    rw [List.length_take, listOf_length]; omega

theorem listOf_drop (f : Nat → Int) (n p : Nat) :
    (listOf f n).drop p = listOf (fun i => f (p + i)) (n - p) := by
  apply List.ext_getElem?
  intro i
  rw [List.getElem?_drop, listOf_getElem?, listOf_getElem?]
  by_cases hi : i < n - p
  · rw [if_pos hi, if_pos (by omega)]
  · rw [if_neg hi, if_neg (by omega)]

theorem listOf_pairwise (f : Nat → Int) (n : Nat) :
    (listOf f n).Pairwise (· < ·) ↔ ∀ i j, i < j → j < n → f i < f j := by
  rw [List.pairwise_iff_getElem]
  constructor
  · intro h i j hij hj
    have := h i j (by rw [listOf_length]; omega) (by rw [listOf_length]; omega) hij
    unfold listOf at this
    simpa using this
  · intro h i j hi hj hij
    rw [listOf_length] at hj
    unfold listOf
    simpa using h i j hij hj

theorem intsetElems_mem {is : intset} (hl : is.length < 2147483648) (x : Int) :
    x ∈ intsetElems is ↔ ∃ i, i < is.length ∧ _intsetGet is (i : Int) = x := by
  rw [intsetElems_eq_listOf_nat is (by omega), listOf_mem]

/-- Every element read at the set's encoding is representable at it. -/
theorem intsetElems_fits {is : intset} (he : validEnc is.encoding) (x : Int)
    (hx : x ∈ intsetElems is) : fitsEnc is.encoding x := by
  rw [intsetElems_eq_listOf, listOf_mem] at hx
  obtain ⟨i, _, hi⟩ := hx
  rw [← hi]
  unfold _intsetGet
  rw [validEnc_mod he]
  exact _intsetGetEncoded_fits is _ he

theorem intsetSearch_flag {is : intset} (h : intsetWF is) (v : Int) :
    (intsetSearch is v).1 = 1 ∨ (intsetSearch is v).1 = 0 := by
  rcases intsetSearch_spec h v with ⟨h1, _⟩ | ⟨h1, _⟩
  · left; exact h1
  · right; exact h1

/-- On a well-formed set `intsetSearch` returns 1 exactly for the stored values. -/
theorem intsetSearch_found_iff {is : intset} (h : intsetWF is) (v : Int) :
    (intsetSearch is v).1 = 1 ↔ v ∈ intsetElems is := by
  have hl := intsetWF_length_lt h
  rw [intsetElems_mem hl]
  constructor
  · intro h1
    rcases intsetSearch_spec h v with ⟨_, hp, hg⟩ | ⟨h0, _⟩
    · exact ⟨_, hp, hg⟩
    · rw [h1] at h0; exact absurd h0 (by decide)
  · rintro ⟨i, hi, hg⟩
    rcases intsetSearch_spec h v with ⟨h1, _⟩ | ⟨_, _, hlo, hhi⟩
    · exact h1
    · exfalso
      rcases Nat.lt_or_ge i (intsetSearch is v).2 with h2 | h2
      · have := hlo i h2; omega
      · have := hhi i h2 hi; omega

theorem intsetSearch_absent_iff {is : intset} (h : intsetWF is) (v : Int) :
    (intsetSearch is v).1 = 0 ↔ v ∉ intsetElems is := by
  rw [← intsetSearch_found_iff h]
  rcases intsetSearch_flag h v with h1 | h1 <;> rw [h1] <;> simp

/-- A value that needs a larger encoding lies outside the range of the
values of the smaller one: below them when negative, above them otherwise. -/
theorem fitsEnc_lt_of_upgrade {enc : Nat} {x v : Int} (he : validEnc enc) (hx : fitsEnc enc x)
    (hgt : enc < _intsetValueEncoding v) : (v < 0 → v < x) ∧ (¬ v < 0 → x < v) := by
  obtain ⟨h1, h2, h3⟩ := hx
  unfold _intsetValueEncoding INT32_MIN INT32_MAX INT16_MIN INT16_MAX INTSET_ENC_INT64
    INTSET_ENC_INT32 INTSET_ENC_INT16 at h3 hgt
  unfold INT64_MIN at h1
  unfold INT64_MAX at h2
  rcases he with h | h | h <;>
    simp only [h, INTSET_ENC_INT16, INTSET_ENC_INT32, INTSET_ENC_INT64] at h3 hgt <;>
    split_ifs at h3 hgt <;> omega

/-! ## The operations on well-formed sets -/

theorem pairwise_insert (L : List Int) (p : Nat) (v : Int) (hL : L.Pairwise (· < ·))
    (h1 : ∀ x ∈ L.take p, x < v) (h2 : ∀ x ∈ L.drop p, v < x) :
    (L.take p ++ v :: L.drop p).Pairwise (· < ·) := by
  rw [List.pairwise_append]
  refine ⟨hL.sublist (List.take_sublist _ _),
    List.pairwise_cons.2 ⟨h2, hL.sublist (List.drop_sublist _ _)⟩, ?_⟩
  intro a ha b hb
  rcases List.mem_cons.1 hb with hb | hb
  · rw [hb]; exact h1 a ha
  · exact lt_trans (h1 a ha) (h2 b hb)

theorem mem_insert (L : List Int) (p : Nat) (v x : Int) :
    x ∈ L.take p ++ v :: L.drop p ↔ x = v ∨ x ∈ L := by
  conv_rhs => rw [← List.take_append_drop p L]
  simp only [List.mem_append, List.mem_cons]
  tauto

/-- The insertion index that `intsetSearch` returns splits the element
sequence into the values below and the values above the one searched. -/
theorem intsetSearch_split {is : intset} (h : intsetWF is) (v : Int)
    (hs : (intsetSearch is v).1 = 0) :
    (∀ x ∈ (intsetElems is).take (intsetSearch is v).2, x < v) ∧
    (∀ x ∈ (intsetElems is).drop (intsetSearch is v).2, v < x) := by
  have hl := intsetWF_length_lt h
  rcases intsetSearch_spec h v with ⟨h1, _⟩ | ⟨_, hp, hlo, hhi⟩
  · rw [hs] at h1; exact absurd h1 (by decide)
  rw [intsetElems_eq_listOf_nat is (by omega), listOf_take _ _ _ hp, listOf_drop]
  constructor
  · intro x hx
    rw [listOf_mem] at hx
    obtain ⟨i, hi, hx⟩ := hx
    rw [← hx]; exact hlo i hi
  · intro x hx
    rw [listOf_mem] at hx
    obtain ⟨i, hi, hx⟩ := hx
    rw [← hx]; exact hhi _ (by omega) (by omega)

/-- Adding a value that is already stored changes nothing and reports 0. -/
theorem intsetAdd_present {is : intset} (h : intsetWF is) (v : Int)
    (hm : v ∈ intsetElems is) : intsetAdd is v = (is, 0) := by
  have hfit := intsetElems_fits h.1 v hm
  have hs := (intsetSearch_found_iff h v).2 hm
  unfold intsetAdd
  simp only
  rw [if_neg (by have := hfit.2.2; omega), if_pos (by rw [hs]; decide)]

/-- Adding a value that is not stored, when one more element fits. -/
theorem intsetAdd_absent {is : intset} (h : intsetWF is) (v : Int) (hv : isInt64 v)
    (hm : v ∉ intsetElems is) (hroom : intsetRoom is v) :
    (intsetAdd is v).2 = 1 ∧
    (intsetAdd is v).1.encoding = max is.encoding (_intsetValueEncoding v) ∧
    (intsetAdd is v).1.length = is.length + 1 ∧
    intsetWF (intsetAdd is v).1 ∧
    ∀ x, x ∈ intsetElems (intsetAdd is v).1 ↔ x = v ∨ x ∈ intsetElems is := by
  unfold intsetRoom at hroom
  by_cases hgt : is.encoding < _intsetValueEncoding v
  · have hmax : max is.encoding (_intsetValueEncoding v) = _intsetValueEncoding v :=
      max_eq_right (le_of_lt hgt)
    rw [hmax] at hroom ⊢
    have hadd : intsetAdd is v = (intsetUpgradeAndAdd is v, 1) := by
      unfold intsetAdd
      simp only
      rw [if_pos hgt]
    obtain ⟨h1, h2, h3, h4⟩ := intsetUpgradeAndAdd_spec h v hv hgt hroom
    rw [hadd]
    refine ⟨rfl, h1, h2, ⟨?_, ?_, ?_, ?_⟩, ?_⟩
    · show validEnc (intsetUpgradeAndAdd is v).encoding
      rw [h1]; exact _intsetValueEncoding_valid v
    · show (intsetUpgradeAndAdd is v).contents.length = _
      rw [h3, h2, h1]
    · show (intsetUpgradeAndAdd is v).length * (intsetUpgradeAndAdd is v).encoding < _
      rw [h2, h1]; exact hroom
    · show (intsetElems (intsetUpgradeAndAdd is v)).Pairwise (· < ·)
      rw [h4]
      have hlt := fun x hx => fitsEnc_lt_of_upgrade h.1 (intsetElems_fits h.1 x hx) hgt
      split
      · rename_i hneg
        exact List.pairwise_cons.2 ⟨fun x hx => (hlt x hx).1 hneg, h.2.2.2⟩
      · rename_i hneg
        rw [List.pairwise_append]
        refine ⟨h.2.2.2, List.pairwise_singleton _ _, ?_⟩
        intro a ha b hb
        rw [List.mem_singleton] at hb
        rw [hb]; exact (hlt a ha).2 hneg
    · intro x
      show x ∈ intsetElems (intsetUpgradeAndAdd is v) ↔ _
      rw [h4]
      split
      · rw [List.mem_cons]
      · rw [List.mem_append, List.mem_singleton]; tauto
  · have hle : _intsetValueEncoding v ≤ is.encoding := by omega
    have hmax : max is.encoding (_intsetValueEncoding v) = is.encoding := max_eq_left hle
    rw [hmax] at hroom ⊢
    have hs := (intsetSearch_absent_iff h v).2 hm
    obtain ⟨h1, h2, h3, h4, h5⟩ := intsetAdd_insert h v (fitsEnc_of_valenc hv hle) hroom hs
    obtain ⟨hlo, hhi⟩ := intsetSearch_split h v hs
    refine ⟨h1, h2, h3, ⟨?_, ?_, ?_, ?_⟩, ?_⟩
    · rw [h2]; exact h.1
    · rw [h4, h3, h2]
    · rw [h3, h2]; exact hroom
    · rw [h5]; exact pairwise_insert _ _ _ h.2.2.2 hlo hhi
    · intro x
      rw [h5]; exact mem_insert _ _ _ _

/-- Removing a value that is stored. -/
theorem intsetRemove_present {is : intset} (h : intsetWF is) (v : Int)
    (hm : v ∈ intsetElems is) :
    (intsetRemove is v).2 = 1 ∧
    (intsetRemove is v).1.encoding = is.encoding ∧
    (intsetRemove is v).1.length = is.length - 1 ∧
    0 < is.length ∧
    intsetWF (intsetRemove is v).1 ∧
    ∀ x, x ∈ intsetElems (intsetRemove is v).1 ↔ x ≠ v ∧ x ∈ intsetElems is := by
  have hl := intsetWF_length_lt h
  have hfit := intsetElems_fits h.1 v hm
  have hs := (intsetSearch_found_iff h v).2 hm
  have hsorted := intsetWF_sorted h
  obtain ⟨h1, h2, h3, h4, h5⟩ := intsetRemove_found h v hfit.2.2 hs
  rcases intsetSearch_spec h v with ⟨_, hp, hg⟩ | ⟨h0, _⟩
  swap
  · rw [hs] at h0; exact absurd h0 (by decide)
  have hle : (is.length - 1) * is.encoding ≤ is.length * is.encoding :=
    Nat.mul_le_mul_right _ (by omega)
  refine ⟨h1, h2, h3, by omega, ⟨?_, ?_, ?_, ?_⟩, ?_⟩
  · rw [h2]; exact h.1
  · rw [h4, h3, h2]
  · rw [h3, h2]; have := h.2.2.1; omega
  · rw [h5, ← List.eraseIdx_eq_take_drop_succ]
    exact h.2.2.2.sublist (List.eraseIdx_sublist _ _)
  · intro x
    rw [h5, intsetElems_eq_listOf_nat is (by omega), listOf_take _ _ _ (le_of_lt hp), listOf_drop,
      List.mem_append, listOf_mem, listOf_mem, listOf_mem]
    generalize (intsetSearch is v).2 = p at hp hg
    constructor
    · rintro (⟨i, hi, hx⟩ | ⟨i, hi, hx⟩)
      · refine ⟨?_, i, by omega, hx⟩
        have := hsorted i p hi hp
        omega
      · refine ⟨?_, p + 1 + i, by omega, hx⟩
        have := hsorted p (p + 1 + i) (by omega) (by omega)
        omega
    · rintro ⟨hne, i, hi, hx⟩
      rcases Nat.lt_trichotomy i p with hip | hip | hip
      · left; exact ⟨i, hip, hx⟩
      · rw [hip] at hx; omega
      · right
        refine ⟨i - (p + 1), by omega, ?_⟩
        rw [show p + 1 + (i - (p + 1)) = i by omega]; exact hx

/-- Removing a value that is not stored changes nothing and reports 0. -/
theorem intsetRemove_not_mem {is : intset} (h : intsetWF is) (v : Int)
    (hm : v ∉ intsetElems is) : intsetRemove is v = (is, 0) :=
  intsetRemove_absent is v (Or.inr ((intsetSearch_absent_iff h v).2 hm))

/-! ## Membership test -/

theorem intsetFind_eq_one_iff {is : intset} (h : intsetWF is) (v : Int) :
    intsetFind is v = 1 ↔ v ∈ intsetElems is := by
  unfold intsetFind
  simp only
  constructor
  · intro h1
    split at h1
    · rename_i h2
      rcases intsetSearch_flag h v with h3 | h3
      · exact (intsetSearch_found_iff h v).1 h3
      · exact absurd h3 h2.2
    · exact absurd h1 (by decide)
  · intro hm
    have hfit := intsetElems_fits h.1 v hm
    have hs := (intsetSearch_found_iff h v).2 hm
    rw [if_pos ⟨hfit.2.2, by rw [hs]; decide⟩]

theorem intsetFind_flag (is : intset) (v : Int) : intsetFind is v = 1 ∨ intsetFind is v = 0 := by
  unfold intsetFind
  simp only
  split
  · left; rfl
  · right; rfl

theorem intsetFind_eq_zero_iff {is : intset} (h : intsetWF is) (v : Int) :
    intsetFind is v = 0 ↔ v ∉ intsetElems is := by
  rw [← intsetFind_eq_one_iff h]
  rcases intsetFind_flag is v with h1 | h1 <;> rw [h1] <;> simp

/-- C2. On a well-formed set `intsetFind` returns non-zero exactly for the
values stored at some index below `length`, and it returns 0 for every value
whose required encoding is greater than the encoding of the set. -/
theorem intsetFind_iff_stored (is : intset) (v : Int) (h : intsetWF is) :
    (intsetFind is v ≠ 0 ↔ ∃ i, i < is.length ∧ _intsetGet is (toInt32 i) = v) ∧
    (is.encoding < _intsetValueEncoding v → intsetFind is v = 0) := by
  have hmem : v ∈ intsetElems is ↔ ∃ i, i < is.length ∧ _intsetGet is (toInt32 i) = v := by
    rw [intsetElems_eq_listOf, listOf_mem]
  constructor
  · rw [← hmem, ← intsetFind_eq_one_iff h]
    rcases intsetFind_flag is v with h1 | h1 <;> rw [h1] <;> simp
  · intro hgt
    unfold intsetFind
    simp only
    rw [if_neg]
    rintro ⟨h1, _⟩
    omega

theorem intsetFind_iff_stored_witness :
    intsetWF exampleSet ∧
    ((intsetFind exampleSet 5 ≠ 0 ↔
        ∃ i, i < exampleSet.length ∧ _intsetGet exampleSet (toInt32 i) = 5) ∧
      (exampleSet.encoding < _intsetValueEncoding 5 → intsetFind exampleSet 5 = 0)) :=
  ⟨by decide, intsetFind_iff_stored exampleSet 5 (by decide)⟩

/-- The outcome of `intsetAdd` on a well-formed set, for both paths: the
result is well-formed and holds the old values and the new one. -/
theorem intsetAdd_wf {is : intset} (h : intsetWF is) (v : Int) (hv : isInt64 v)
    (hroom : v ∈ intsetElems is ∨ intsetRoom is v) :
    intsetWF (intsetAdd is v).1 ∧
    ∀ x, x ∈ intsetElems (intsetAdd is v).1 ↔ x = v ∨ x ∈ intsetElems is := by
  by_cases hm : v ∈ intsetElems is
  · rw [intsetAdd_present h v hm]
    refine ⟨h, fun x => ?_⟩
    constructor
    · intro hx; exact Or.inr hx
    · rintro (hx | hx)
      · rw [hx]; exact hm
      · exact hx
  · have hr : intsetRoom is v := by
      rcases hroom with h1 | h1
      · exact absurd h1 hm
      · exact h1
    obtain ⟨_, _, _, h4, h5⟩ := intsetAdd_absent h v hv hm hr
    exact ⟨h4, h5⟩

/-- Below the wrap of the buffer size: after `intsetAdd` of a value to a
well-formed set, `intsetFind` of that value on the returned set is true,
whichever path the add took, provided one more element fits when the value is
not stored yet (`intsetRoom`). -/
theorem intsetFind_intsetAdd (is : intset) (v : Int) (h : intsetWF is) (hv : isInt64 v)
    (hroom : v ∈ intsetElems is ∨ intsetRoom is v) :
    intsetFind (intsetAdd is v).1 v = 1 := by
  obtain ⟨hwf, hmem⟩ := intsetAdd_wf h v hv hroom
  rw [intsetFind_eq_one_iff hwf, hmem]
  left; rfl

theorem intsetFind_intsetAdd_witness :
    intsetWF exampleSet ∧ isInt64 65535 ∧
    (65535 ∈ intsetElems exampleSet ∨ intsetRoom exampleSet 65535) ∧
    intsetFind (intsetAdd exampleSet 65535).1 65535 = 1 :=
  ⟨by decide, by decide, by decide,
    intsetFind_intsetAdd exampleSet 65535 (by decide) (by decide) (by decide)⟩

/-- The outcome of `intsetRemove` on a well-formed set, for both paths: the
result is well-formed and holds the old values without the removed one. -/
theorem intsetRemove_wf {is : intset} (h : intsetWF is) (v : Int) :
    intsetWF (intsetRemove is v).1 ∧
    ∀ x, x ∈ intsetElems (intsetRemove is v).1 ↔ x ≠ v ∧ x ∈ intsetElems is := by
  by_cases hm : v ∈ intsetElems is
  · obtain ⟨_, _, _, _, h4, h5⟩ := intsetRemove_present h v hm
    exact ⟨h4, h5⟩
  · rw [intsetRemove_not_mem h v hm]
    refine ⟨h, fun x => ?_⟩
    constructor
    · intro hx
      refine ⟨?_, hx⟩
      intro hxv; rw [hxv] at hx; exact hm hx
    · rintro ⟨_, hx⟩; exact hx

/-- C4. After `intsetRemove` of a value from a well-formed set, `intsetFind`
of that value on the returned set is false, whether or not it was stored. -/
theorem intsetFind_intsetRemove (is : intset) (v : Int) (h : intsetWF is) :
    intsetFind (intsetRemove is v).1 v = 0 := by
  obtain ⟨hwf, hmem⟩ := intsetRemove_wf h v
  rw [intsetFind_eq_zero_iff hwf, hmem]
  rintro ⟨h1, _⟩
  exact h1 rfl

theorem intsetFind_intsetRemove_witness :
    intsetWF exampleSet ∧ intsetFind (intsetRemove exampleSet 5).1 5 = 0 :=
  ⟨by decide, intsetFind_intsetRemove exampleSet 5 (by decide)⟩

theorem intsetRoom_of_length {is : intset} (he : validEnc is.encoding) (v : Int)
    (hl : is.length + 1 < 536870912) : intsetRoom is v := by
  unfold intsetRoom
  have h1 : is.encoding ≤ 8 := by
    rcases he with h | h | h <;> rw [h] <;> decide
  have h2 : _intsetValueEncoding v ≤ 8 := by
    rcases _intsetValueEncoding_valid v with h | h | h <;> rw [h] <;> decide
  have h3 : max is.encoding (_intsetValueEncoding v) ≤ 8 := max_le h1 h2
  have := Nat.mul_le_mul_left (is.length + 1) h3
  omega

/-- Repeated `intsetAdd`: the result is well-formed, its length has grown by
the number of adds that reported success and it holds the old values and the
added ones. -/
theorem intsetAddAll_spec (vs : List Int) (is : intset) (h : intsetWF is)
    (hv : ∀ v ∈ vs, isInt64 v) (hl : is.length + vs.length < 536870912) :
    intsetWF (intsetAddAll is vs).1 ∧
    (intsetAddAll is vs).1.length = is.length + (intsetAddAll is vs).2 ∧
    ∀ x, x ∈ intsetElems (intsetAddAll is vs).1 ↔ x ∈ intsetElems is ∨ x ∈ vs := by
  induction vs generalizing is with
  | nil =>
    simp only [intsetAddAll]
    exact ⟨h, rfl, fun x => by simp⟩
  | cons v vs ih =>
    simp only [intsetAddAll]
    simp only [List.length_cons] at hl
    have hv1 := hv v (List.mem_cons_self _ _)
    have hvs : ∀ x ∈ vs, isInt64 x := fun x hx => hv x (List.mem_cons_of_mem _ hx)
    by_cases hm : v ∈ intsetElems is
    · rw [intsetAdd_present h v hm]
      obtain ⟨h1, h2, h3⟩ := ih is h hvs (by omega)
      refine ⟨h1, by simp only; omega, fun x => ?_⟩
      simp only
      rw [h3, List.mem_cons]
      constructor
      · rintro (hx | hx)
        · exact Or.inl hx
        · exact Or.inr (Or.inr hx)
      · rintro (hx | hx | hx)
        · exact Or.inl hx
        · rw [hx]; exact Or.inl hm
        · exact Or.inr hx
    · have hr := intsetRoom_of_length h.1 v (by omega)
      obtain ⟨a1, _, a3, a4, a5⟩ := intsetAdd_absent h v hv1 hm hr
      obtain ⟨h1, h2, h3⟩ := ih (intsetAdd is v).1 a4 hvs (by rw [a3]; omega)
      refine ⟨h1, by rw [h2, a3, a1]; omega, fun x => ?_⟩
      rw [h3, a5, List.mem_cons]
      tauto

theorem intsetNew_wf : intsetWF intsetNew := by decide

/-- Below the wrap of the buffer size: on a well-formed set, `intsetAdd` of a
value that is not stored reports 1 and gives a set one element longer (when
one more element fits); `intsetAdd` of a stored value reports 0 and returns
the set as it is, with the same encoding, length and element sequence. Hence
after adding a list of fewer than 536870912 values to the empty set the length
is the number of adds that reported success. -/
theorem intsetAdd_success_length (is : intset) (v : Int) (vs : List Int) (h : intsetWF is)
    (hv : isInt64 v) :
    (v ∉ intsetElems is → intsetRoom is v →
      (intsetAdd is v).2 = 1 ∧ (intsetAdd is v).1.length = is.length + 1) ∧
    (v ∈ intsetElems is →
      (intsetAdd is v).2 = 0 ∧ (intsetAdd is v).1.encoding = is.encoding ∧
      (intsetAdd is v).1.length = is.length ∧
      intsetElems (intsetAdd is v).1 = intsetElems is) ∧
    ((∀ x ∈ vs, isInt64 x) → vs.length < 536870912 →
      (intsetAddAll intsetNew vs).1.length = (intsetAddAll intsetNew vs).2) := by
  refine ⟨?_, ?_, ?_⟩
  · intro hm hr
    obtain ⟨a1, _, a3, _, _⟩ := intsetAdd_absent h v hv hm hr
    exact ⟨a1, a3⟩
  · intro hm
    rw [intsetAdd_present h v hm]
    exact ⟨rfl, rfl, rfl, rfl⟩
  · intro hvs hl
    have := (intsetAddAll_spec vs intsetNew intsetNew_wf hvs (by
      show 0 + vs.length < _
      omega)).2.1
    rw [this]
    show 0 + _ = _
    omega

theorem intsetAdd_success_length_witness :
    intsetWF exampleSet ∧ isInt64 7 ∧
    ((7 ∉ intsetElems exampleSet → intsetRoom exampleSet 7 →
      (intsetAdd exampleSet 7).2 = 1 ∧ (intsetAdd exampleSet 7).1.length = exampleSet.length + 1) ∧
    (7 ∈ intsetElems exampleSet →
      (intsetAdd exampleSet 7).2 = 0 ∧ (intsetAdd exampleSet 7).1.encoding = exampleSet.encoding ∧
      (intsetAdd exampleSet 7).1.length = exampleSet.length ∧
      intsetElems (intsetAdd exampleSet 7).1 = intsetElems exampleSet) ∧
    ((∀ x ∈ [5, 6, 4, 4], isInt64 x) → [5, 6, 4, 4].length < 536870912 →
      (intsetAddAll intsetNew [5, 6, 4, 4]).1.length = (intsetAddAll intsetNew [5, 6, 4, 4]).2)) :=
  ⟨by decide, by decide, intsetAdd_success_length exampleSet 7 [5, 6, 4, 4] (by decide) (by decide)⟩

/-- C6. On a well-formed set, `intsetRemove` of a stored value reports 1 and
gives a set one element shorter; `intsetRemove` of any other value, among
them every value whose required encoding is greater than the encoding of the
set, reports 0 and returns the set as it is, with the same encoding, length
and element sequence. -/
theorem intsetRemove_success_length (is : intset) (v : Int) (h : intsetWF is) :
    (v ∈ intsetElems is →
      (intsetRemove is v).2 = 1 ∧ (intsetRemove is v).1.length + 1 = is.length) ∧
    (v ∉ intsetElems is →
      (intsetRemove is v).2 = 0 ∧ (intsetRemove is v).1.encoding = is.encoding ∧
      (intsetRemove is v).1.length = is.length ∧
      intsetElems (intsetRemove is v).1 = intsetElems is) ∧
    (is.encoding < _intsetValueEncoding v →
      v ∉ intsetElems is ∧ intsetRemove is v = (is, 0)) := by
  refine ⟨?_, ?_, ?_⟩
  · intro hm
    obtain ⟨a1, _, a3, a4, _, _⟩ := intsetRemove_present h v hm
    exact ⟨a1, by rw [a3]; omega⟩
  · intro hm
    rw [intsetRemove_not_mem h v hm]
    exact ⟨rfl, rfl, rfl, rfl⟩
  · intro hgt
    refine ⟨?_, intsetRemove_absent is v (Or.inl hgt)⟩
    intro hm
    have := (intsetElems_fits h.1 v hm).2.2
    omega

theorem intsetRemove_success_length_witness :
    intsetWF exampleSet ∧
    ((5 ∈ intsetElems exampleSet →
      (intsetRemove exampleSet 5).2 = 1 ∧
      (intsetRemove exampleSet 5).1.length + 1 = exampleSet.length) ∧
    (5 ∉ intsetElems exampleSet →
      (intsetRemove exampleSet 5).2 = 0 ∧
      (intsetRemove exampleSet 5).1.encoding = exampleSet.encoding ∧
      (intsetRemove exampleSet 5).1.length = exampleSet.length ∧
      intsetElems (intsetRemove exampleSet 5).1 = intsetElems exampleSet) ∧
    (exampleSet.encoding < _intsetValueEncoding 5 →
      5 ∉ intsetElems exampleSet ∧ intsetRemove exampleSet 5 = (exampleSet, 0))) :=
  ⟨by decide, intsetRemove_success_length exampleSet 5 (by decide)⟩

/-- A strictly ascending list is the sorted list of the distinct values of any
list with the same members. -/
theorem eq_sort_of_pairwise (L vs : List Int) (hL : L.Pairwise (· < ·))
    (hmem : ∀ x, x ∈ L ↔ x ∈ vs) : L = vs.toFinset.sort (· ≤ ·) := by
  have hnd : L.Nodup := hL.imp (fun h => ne_of_lt h)
  have hsorted : L.Sorted (· ≤ ·) := hL.imp (fun h => le_of_lt h)
  apply List.eq_of_perm_of_sorted _ hsorted (Finset.sort_sorted _ _)
  apply List.perm_of_nodup_nodup_toFinset_eq hnd (Finset.sort_nodup _ _)
  rw [Finset.sort_toFinset]
  ext x
  simp only [List.mem_toFinset]
  exact hmem x

theorem intsetGet_map_range (is : intset) (d : Int) :
    (List.range is.length).map (fun i => intsetGet is i d)
      = (intsetElems is).map (fun x => ((1 : Nat), x)) := by
  unfold intsetElems
  rw [List.map_map]
  apply List.map_congr_left
  intro i hi
  rw [List.mem_range] at hi
  unfold intsetGet
  simp only [Function.comp, if_pos hi]

/-- Below the wrap of the buffer size: adding a list of fewer than 536870912
values one by one to the set that `intsetNew` creates gives the set whose
element sequence, read with `intsetGet` at the indexes below `length`, is the
ascending list of the distinct values of the input; so the result is the same
for every order of the input. Adding 5, 6, 4 gives 4, 5, 6, and adding 4 once
more reports 0 with the length still 3. -/
theorem intsetAddAll_elems (vs : List Int) (hv : ∀ v ∈ vs, isInt64 v)
    (hl : vs.length < 536870912) :
    (List.range (intsetAddAll intsetNew vs).1.length).map
        (fun i => intsetGet (intsetAddAll intsetNew vs).1 i 0)
      = (vs.toFinset.sort (· ≤ ·)).map (fun x => ((1 : Nat), x)) ∧
    (∀ ws : List Int, ws.Perm vs →
      intsetElems (intsetAddAll intsetNew ws).1 = intsetElems (intsetAddAll intsetNew vs).1) ∧
    intsetElems (intsetAddAll intsetNew [5, 6, 4]).1 = [4, 5, 6] ∧
    (intsetAdd (intsetAddAll intsetNew [5, 6, 4]).1 4).2 = 0 ∧
    (intsetAdd (intsetAddAll intsetNew [5, 6, 4]).1 4).1.length = 3 := by
  have key : ∀ ws : List Int, (∀ v ∈ ws, isInt64 v) → ws.length < 536870912 →
      intsetElems (intsetAddAll intsetNew ws).1 = ws.toFinset.sort (· ≤ ·) := by
    intro ws hws hwl
    obtain ⟨h1, _, h3⟩ := intsetAddAll_spec ws intsetNew intsetNew_wf hws (by
      show 0 + ws.length < _
      omega)
    apply eq_sort_of_pairwise _ _ h1.2.2.2
    intro x
    rw [h3]
    constructor
    · rintro (hx | hx)
      · exact absurd hx (by simp [intsetElems, intsetNew])
      · exact hx
    · intro hx; exact Or.inr hx
  refine ⟨?_, ?_, by decide, by decide, by decide⟩
  · rw [intsetGet_map_range, key vs hv hl]
  · intro ws hp
    rw [key vs hv hl, key ws (fun v hx => hv v (hp.mem_iff.1 hx)) (by rw [hp.length_eq]; exact hl)]
    congr 1
    ext x
    simp only [List.mem_toFinset]
    exact hp.mem_iff

theorem intsetAddAll_elems_witness :
    (∀ v ∈ [5, 6, 4, 65535, 4], isInt64 v) ∧ [5, 6, 4, 65535, 4].length < 536870912 ∧
    (List.range (intsetAddAll intsetNew [5, 6, 4, 65535, 4]).1.length).map
        (fun i => intsetGet (intsetAddAll intsetNew [5, 6, 4, 65535, 4]).1 i 0)
      = (([5, 6, 4, 65535, 4] : List Int).toFinset.sort (· ≤ ·)).map (fun x => ((1 : Nat), x)) :=
  ⟨by decide, by decide, (intsetAddAll_elems [5, 6, 4, 65535, 4] (by decide) (by decide)).1⟩

theorem intsetAdd_upgrade_eq (is : intset) (v : Int)
    (hgt : is.encoding < _intsetValueEncoding v) :
    intsetAdd is v = (intsetUpgradeAndAdd is v, 1) := by
  unfold intsetAdd
  simp only
  rw [if_pos hgt]

/-- Below the wrap of the buffer size (`intsetRoom`): when the value requires
a greater encoding than the set has, the element sequence of the set
`intsetAdd` returns is the value followed by the old sequence when the value
is negative, and the old sequence followed by the value otherwise: the element
of index `i` lands at index `i + 1`, respectively `i`, and reads at the new
encoding as the value it had at the old one. -/
theorem intsetAdd_upgrade_elems (is : intset) (v : Int) (h : intsetWF is) (hv : isInt64 v)
    (hgt : is.encoding < _intsetValueEncoding v) (hroom : intsetRoom is v) :
    intsetElems (intsetAdd is v).1
      = (if v < 0 then v :: intsetElems is else intsetElems is ++ [v]) ∧
    ∀ i, i < is.length →
      _intsetGet (intsetAdd is v).1 (toInt32 (i + (if v < 0 then 1 else 0)))
        = _intsetGet is (toInt32 i) := by
  have hl := intsetWF_length_lt h
  have hr : (is.length + 1) * _intsetValueEncoding v < 4294967296 := by
    unfold intsetRoom at hroom
    rw [max_eq_right (le_of_lt hgt)] at hroom
    exact hroom
  obtain ⟨_, h2, _, h4⟩ := intsetUpgradeAndAdd_spec h v hv hgt hr
  rw [intsetAdd_upgrade_eq is v hgt]
  refine ⟨h4, ?_⟩
  intro i hi
  have hlen : (intsetElems (intsetUpgradeAndAdd is v)).length = is.length + 1 := by
    rw [intsetElems_length, h2]
  have hi0 : i < (intsetElems is).length := by rw [intsetElems_length]; exact hi
  show _intsetGet (intsetUpgradeAndAdd is v) _ = _
  rw [← intsetElems_getElem is i hi0]
  by_cases hneg : v < 0
  · rw [if_pos hneg] at h4 ⊢
    rw [← intsetElems_getElem _ (i + 1) (by rw [hlen]; omega)]
    simp only [h4, List.getElem_cons_succ]
  · rw [if_neg hneg] at h4 ⊢
    rw [← intsetElems_getElem _ (i + 0) (by rw [hlen]; omega)]
    simp only [h4, Nat.add_zero]
    rw [List.getElem_append_left hi0]

theorem intsetAdd_upgrade_elems_witness :
    intsetWF exampleSet ∧ isInt64 (-2147483649) ∧
    exampleSet.encoding < _intsetValueEncoding (-2147483649) ∧
    intsetRoom exampleSet (-2147483649) ∧
    intsetElems (intsetAdd exampleSet (-2147483649)).1
      = (if (-2147483649 : Int) < 0 then -2147483649 :: intsetElems exampleSet
          else intsetElems exampleSet ++ [-2147483649]) :=
  ⟨by decide, by decide, by decide, by decide,
    (intsetAdd_upgrade_elems exampleSet (-2147483649) (by decide) (by decide) (by decide)
      (by decide)).1⟩

theorem intsetUpgradeLoop_encoding (c : Nat) (pre : Int) (k : Nat) (t : intset) :
    (intsetUpgradeLoop c pre k t).encoding = t.encoding := by
  induction k generalizing t with
  | zero => rfl
  | succ k ih => simp only [intsetUpgradeLoop]; rw [ih, _intsetSet_encoding]

theorem intsetUpgradeAndAdd_encoding (is : intset) (v : Int) :
    (intsetUpgradeAndAdd is v).encoding = _intsetValueEncoding v := by
  unfold intsetUpgradeAndAdd
  simp only
  split <;> split <;>
    rw [_intsetSet_encoding, intsetUpgradeLoop_encoding, intsetResize_encoding]

/-- The encoding after `intsetAdd`, for any set: the larger of the encoding of
the set and the encoding the value requires. -/
theorem intsetAdd_encoding (is : intset) (v : Int) :
    (intsetAdd is v).1.encoding = max is.encoding (_intsetValueEncoding v) := by
  unfold intsetAdd
  simp only
  by_cases hgt : _intsetValueEncoding v > is.encoding
  · rw [if_pos hgt, max_eq_right (le_of_lt hgt)]
    exact intsetUpgradeAndAdd_encoding is v
  · rw [if_neg hgt, max_eq_left (by omega)]
    split
    · rfl
    · show (_intsetSet _ _ _).encoding = _
      rw [_intsetSet_encoding]
      split
      · rw [intsetMoveTail_encoding, intsetResize_encoding]
      · rw [intsetResize_encoding]

/-- The removing path of `intsetRemove`, as an equation. -/
theorem intsetRemove_eq_of_found (is : intset) (v : Int)
    (h : _intsetValueEncoding v ≤ is.encoding ∧ (intsetSearch is v).1 ≠ 0) :
    intsetRemove is v =
      ({ intsetResize
          (if (intsetSearch is v).2 < (is.length + 4294967295) % 4294967296 then
            intsetMoveTail is (((intsetSearch is v).2 + 1) % 4294967296) (intsetSearch is v).2
          else is) ((is.length + 4294967295) % 4294967296) with
          length := (is.length + 4294967295) % 4294967296 }, 1) := by
  unfold intsetRemove
  simp only
  rw [if_pos h]

theorem ite_encoding (c : Prop) [Decidable c] (a b : intset) (e : Nat)
    (ha : a.encoding = e) (hb : b.encoding = e) : (if c then a else b).encoding = e := by
  split
  · exact ha
  · exact hb

theorem fst_with_length_encoding (t : intset) (m k : Nat) :
    (({ t with length := m }, k) : intset × Nat).1.encoding = t.encoding := rfl

/-- The encoding after `intsetRemove`, for any set: unchanged. -/
theorem intsetRemove_encoding (is : intset) (v : Int) :
    (intsetRemove is v).1.encoding = is.encoding := by
  by_cases h : _intsetValueEncoding v ≤ is.encoding ∧ (intsetSearch is v).1 ≠ 0
  · rw [intsetRemove_eq_of_found is v h, fst_with_length_encoding, intsetResize_encoding]
    exact ite_encoding _ _ _ _ (intsetMoveTail_encoding _ _ _) rfl
  · have e : intsetRemove is v = (is, 0) := by
      unfold intsetRemove
      simp only
      rw [if_neg h]
    rw [e]

/-- The sets a sequence of calls builds from a well-formed set are
well-formed, as long as every element fits. -/
theorem foldl_applyOp_wf (ops : List IntsetOp) (is : intset) (h : intsetWF is)
    (hv : ∀ op ∈ ops, isInt64 op.value) (hl : is.length + ops.length < 536870912) :
    intsetWF (ops.foldl applyOp is) := by
  induction ops generalizing is with
  | nil => exact h
  | cons op ops ih =>
    rw [List.foldl_cons]
    simp only [List.length_cons] at hl
    have hv1 := hv op (List.mem_cons_self _ _)
    have hvs : ∀ x ∈ ops, isInt64 x.value := fun x hx => hv x (List.mem_cons_of_mem _ hx)
    cases op with
    | add v =>
      have hr := intsetRoom_of_length h.1 v (by omega)
      have hlen : (intsetAdd is v).1.length ≤ is.length + 1 := by
        by_cases hm : v ∈ intsetElems is
        · rw [intsetAdd_present h v hm]; exact Nat.le_succ _
        · rw [(intsetAdd_absent h v hv1 hm hr).2.2.1]
      exact ih _ (intsetAdd_wf h v hv1 (Or.inr hr)).1 hvs (by show (intsetAdd is v).1.length + _ < _; omega)
    | remove v =>
      have hlen : (intsetRemove is v).1.length ≤ is.length := by
        by_cases hm : v ∈ intsetElems is
        · rw [(intsetRemove_present h v hm).2.2.1]; omega
        · rw [intsetRemove_not_mem h v hm]
      exact ih _ (intsetRemove_wf h v).1 hvs (by show (intsetRemove is v).1.length + _ < _; omega)

/-- Below the wrap of the buffer size: every set that a sequence of fewer than
536870912 `intsetAdd` and `intsetRemove` calls builds from `intsetNew` has its
elements, read at the encoding of the set, in strictly ascending order, hence
without duplicates. -/
theorem runOps_sorted (ops : List IntsetOp) (hv : ∀ op ∈ ops, isInt64 op.value)
    (hl : ops.length < 536870912) :
    (intsetElems (runOps ops)).Pairwise (· < ·) ∧ (intsetElems (runOps ops)).Nodup := by
  have hwf : intsetWF (runOps ops) :=
    foldl_applyOp_wf ops intsetNew intsetNew_wf hv (by show 0 + ops.length < _; omega)
  exact ⟨hwf.2.2.2, hwf.2.2.2.imp (fun h => ne_of_lt h)⟩

theorem runOps_sorted_witness :
    (∀ op ∈ [IntsetOp.add 5, IntsetOp.add 65535, IntsetOp.add (-4294967296), IntsetOp.remove 5,
      IntsetOp.add 4], isInt64 op.value) ∧
    [IntsetOp.add 5, IntsetOp.add 65535, IntsetOp.add (-4294967296), IntsetOp.remove 5,
      IntsetOp.add 4].length < 536870912 ∧
    (intsetElems (runOps [IntsetOp.add 5, IntsetOp.add 65535, IntsetOp.add (-4294967296),
      IntsetOp.remove 5, IntsetOp.add 4])).Pairwise (· < ·) ∧
    (intsetElems (runOps [IntsetOp.add 5, IntsetOp.add 65535, IntsetOp.add (-4294967296),
      IntsetOp.remove 5, IntsetOp.add 4])).Nodup :=
  ⟨by decide, by decide,
    runOps_sorted [IntsetOp.add 5, IntsetOp.add 65535, IntsetOp.add (-4294967296),
      IntsetOp.remove 5, IntsetOp.add 4] (by decide) (by decide)⟩

/-- C11. For every set and every value, the set `intsetRemove` returns has the
encoding of the set it was given; the 32-bit set holding only 65535 stays
32-bit when 65535, the only element that required that encoding, is removed. -/
theorem intsetRemove_keeps_encoding (is : intset) (v : Int) :
    (intsetRemove is v).1.encoding = is.encoding ∧
    ((intsetAdd intsetNew 65535).1.encoding = INTSET_ENC_INT32 ∧
      (intsetRemove (intsetAdd intsetNew 65535).1 65535).2 = 1 ∧
      (intsetRemove (intsetAdd intsetNew 65535).1 65535).1.length = 0 ∧
      (intsetRemove (intsetAdd intsetNew 65535).1 65535).1.encoding = INTSET_ENC_INT32) :=
  ⟨intsetRemove_encoding is v, by decide⟩

/-- C12. The encoding `_intsetValueEncoding` returns is the 16-bit one exactly
for the values from -32768 to 32767, the 32-bit one exactly for the values
outside that range and from -2147483648 to 2147483647, and the 64-bit one
exactly for the others; so for an `int64_t` value it is the smallest of the
three encodings whose signed range contains the value. The assertions of the
test "Value encodings" hold. -/
theorem _intsetValueEncoding_range (v : Int) :
    (_intsetValueEncoding v = INTSET_ENC_INT16 ↔ -32768 ≤ v ∧ v ≤ 32767) ∧
    (_intsetValueEncoding v = INTSET_ENC_INT32 ↔
      (v < -32768 ∨ 32767 < v) ∧ -2147483648 ≤ v ∧ v ≤ 2147483647) ∧
    (_intsetValueEncoding v = INTSET_ENC_INT64 ↔ v < -2147483648 ∨ 2147483647 < v) ∧
    (∀ enc, validEnc enc → isInt64 v →
      (_intsetValueEncoding v ≤ enc ↔
        -((256 ^ enc / 2 : Nat) : Int) ≤ v ∧ v < ((256 ^ enc / 2 : Nat) : Int))) ∧
    (_intsetValueEncoding (-32768) = INTSET_ENC_INT16 ∧
      _intsetValueEncoding 32767 = INTSET_ENC_INT16 ∧
      _intsetValueEncoding (-32769) = INTSET_ENC_INT32 ∧
      _intsetValueEncoding 32768 = INTSET_ENC_INT32 ∧
      _intsetValueEncoding (-2147483648) = INTSET_ENC_INT32 ∧
      _intsetValueEncoding 2147483647 = INTSET_ENC_INT32 ∧
      _intsetValueEncoding (-2147483649) = INTSET_ENC_INT64 ∧
      _intsetValueEncoding 2147483648 = INTSET_ENC_INT64 ∧
      _intsetValueEncoding (-9223372036854775808) = INTSET_ENC_INT64 ∧
      _intsetValueEncoding 9223372036854775807 = INTSET_ENC_INT64) := by
  refine ⟨?_, ?_, ?_, ?_, by decide⟩
  · unfold _intsetValueEncoding INT32_MIN INT32_MAX INT16_MIN INT16_MAX INTSET_ENC_INT64
      INTSET_ENC_INT32 INTSET_ENC_INT16
    split_ifs <;> constructor <;> intro h <;> omega
  · unfold _intsetValueEncoding INT32_MIN INT32_MAX INT16_MIN INT16_MAX INTSET_ENC_INT64
      INTSET_ENC_INT32 INTSET_ENC_INT16
    split_ifs <;> constructor <;> intro h <;> omega
  · unfold _intsetValueEncoding INT32_MIN INT32_MAX INT16_MIN INT16_MAX INTSET_ENC_INT64
      INTSET_ENC_INT32 INTSET_ENC_INT16
    split_ifs <;> constructor <;> intro h <;> omega
  · intro enc he hv
    obtain ⟨h1, h2⟩ := hv
    unfold INT64_MIN at h1
    unfold INT64_MAX at h2
    unfold _intsetValueEncoding INT32_MIN INT32_MAX INT16_MIN INT16_MAX INTSET_ENC_INT64
      INTSET_ENC_INT32 INTSET_ENC_INT16
    rcases he with h | h | h <;>
      simp only [h, INTSET_ENC_INT16, INTSET_ENC_INT32, INTSET_ENC_INT64] <;>
      norm_num <;> split_ifs <;> omega

/-- C14. `intsetGet` returns 0 exactly when the index is not below `length`,
and then leaves the output value as it was; for an index below `length` it
returns 1 and sets the output to the value `_intsetGet` reads at that index,
which for a set of at most `2^31` elements is the signed reading of the
little-endian bytes of element `pos`, at the element size that the low 8 bits
of the encoding field select: the element size of the set when the encoding
is one of the three, and 4 bytes for an encoding field of 260, where the
bytes 1, 0, 2, 0 read as 131073. -/
theorem intsetGet_range (is : intset) (pos : Nat) (value : Int) :
    ((intsetGet is pos value).1 = 0 ↔ is.length ≤ pos) ∧
    (is.length ≤ pos → intsetGet is pos value = (0, value)) ∧
    (pos < is.length → intsetGet is pos value = (1, _intsetGet is (toInt32 pos))) ∧
    (pos < is.length → is.length ≤ 2147483648 →
      (intsetGet is pos value).2 = toSigned (encWidth (is.encoding % 256))
        (leDecode (readBytes is.contents (pos * encWidth (is.encoding % 256))
          (encWidth (is.encoding % 256))))) ∧
    (validEnc is.encoding → encWidth (is.encoding % 256) = is.encoding) ∧
    intsetGet { encoding := 260, length := 2, contents := [1, 0, 2, 0, 3, 0, 4, 0] } 0 0
      = (1, 131073) := by
  unfold intsetGet
  refine ⟨?_, ?_, ?_, ?_, ?_, by decide⟩
  · split
    · constructor
      · intro h; exact absurd h Nat.one_ne_zero
      · intro h; omega
    · constructor
      · intro _; omega
      · intro _; rfl
  · intro h; rw [if_neg (by omega)]
  · intro h; rw [if_pos h]
  · intro h hl
    rw [if_pos h, toInt32_of_lt (by omega)]
    show _intsetGet is (pos : Int) = _
    unfold _intsetGet
    rw [_intsetGetEncoded_eq, readAt_nat]
  · intro he
    rw [validEnc_mod he]
    rcases he with he | he | he <;> rw [he] <;> decide

/-- C19. For indexes with `0 <= min <= max <= 2^31 - 1`, the midpoint that
`intsetSearch` computes in 32-bit unsigned arithmetic is the floor of
`(min + max) / 2` and lies between `min` and `max`; it is the `mid` of the
loop after one iteration. -/
theorem intsetSearch_midpoint (is : intset) (value : Int) (lo hi mid cur : Int)
    (h0 : 0 ≤ lo) (h1 : lo ≤ hi) (h2 : hi ≤ 2147483647) :
    toInt32 (((toUInt32 lo + toUInt32 hi) % 4294967296) / 2) = (lo + hi) / 2 ∧
    lo ≤ toInt32 (((toUInt32 lo + toUInt32 hi) % 4294967296) / 2) ∧
    toInt32 (((toUInt32 lo + toUInt32 hi) % 4294967296) / 2) ≤ hi ∧
    (intsetSearchLoop is value 1 lo hi mid cur).2.2.1 = (lo + hi) / 2 := by
  have hm := search_mid_eq lo hi h0 h1 (by omega)
  refine ⟨hm, by rw [hm]; omega, by rw [hm]; omega, ?_⟩
  simp only [intsetSearchLoop]
  rw [if_pos h1, hm]
  split
  · rfl
  · split <;> rfl

theorem intsetSearch_midpoint_witness :
    (0 : Int) ≤ 1073741824 ∧ (1073741824 : Int) ≤ 2147483647 ∧ (2147483647 : Int) ≤ 2147483647 ∧
    toInt32 (((toUInt32 1073741824 + toUInt32 2147483647) % 4294967296) / 2)
      = (1073741824 + 2147483647) / 2 :=
  ⟨by decide, by decide, by decide,
    (intsetSearch_midpoint exampleSet 5 1073741824 2147483647 (-1) (-1) (by decide) (by decide)
      (by decide)).1⟩

/-- C20. In a set of any of the three encodings whose buffer holds `length`
elements, storing a value representable at the encoding with `_intsetSet` at
a position below `length` and reading that position with `_intsetGet` gives
the value back, and every other position reads as before the store. -/
theorem _intsetSet_intsetGet (is : intset) (p q : Nat) (v : Int) (he : validEnc is.encoding)
    (hb : is.contents.length = is.length * is.encoding) (hp : p < is.length)
    (hv : fitsEnc is.encoding v) :
    _intsetGet (_intsetSet is (p : Int) v) (p : Int) = v ∧
    (q ≠ p → _intsetGet (_intsetSet is (p : Int) v) (q : Int) = _intsetGet is (q : Int)) := by
  constructor
  · apply _intsetGet_set_same is p v he hv
    rw [hb]
    exact Nat.mul_le_mul_right _ (by omega)
  · intro hq
    exact _intsetGet_set_other is p q v he hq

theorem _intsetSet_intsetGet_witness :
    validEnc exampleSet.encoding ∧
    exampleSet.contents.length = exampleSet.length * exampleSet.encoding ∧
    1 < exampleSet.length ∧ fitsEnc exampleSet.encoding (-300) ∧
    (_intsetGet (_intsetSet exampleSet ((1 : Nat) : Int) (-300)) ((1 : Nat) : Int) = -300 ∧
    ((2 : Nat) ≠ 1 → _intsetGet (_intsetSet exampleSet ((1 : Nat) : Int) (-300)) ((2 : Nat) : Int)
      = _intsetGet exampleSet ((2 : Nat) : Int))) :=
  ⟨by decide, by decide, by decide, by decide,
    _intsetSet_intsetGet exampleSet 1 2 (-300) (by decide) (by decide) (by decide) (by decide)⟩

/-- Below the wrap of the buffer size: on a well-formed set, `intsetAdd` and
`intsetRemove` of a value leave the result of `intsetFind` unchanged for every
other value, provided one more element fits when the added value is not
stored yet (`intsetRoom`). -/
theorem intsetFind_other (is : intset) (v w : Int) (h : intsetWF is) (hv : isInt64 v)
    (hne : w ≠ v) (hroom : v ∈ intsetElems is ∨ intsetRoom is v) :
    intsetFind (intsetAdd is v).1 w = intsetFind is w ∧
    intsetFind (intsetRemove is v).1 w = intsetFind is w := by
  obtain ⟨ha, hma⟩ := intsetAdd_wf h v hv hroom
  obtain ⟨hr, hmr⟩ := intsetRemove_wf h v
  constructor
  · rcases intsetFind_flag is w with h1 | h1
    · rw [h1, intsetFind_eq_one_iff ha, hma]
      exact Or.inr ((intsetFind_eq_one_iff h w).1 h1)
    · rw [h1, intsetFind_eq_zero_iff ha, hma]
      rintro (h2 | h2)
      · exact hne h2
      · exact (intsetFind_eq_zero_iff h w).1 h1 h2
  · rcases intsetFind_flag is w with h1 | h1
    · rw [h1, intsetFind_eq_one_iff hr, hmr]
      exact ⟨hne, (intsetFind_eq_one_iff h w).1 h1⟩
    · rw [h1, intsetFind_eq_zero_iff hr, hmr]
      rintro ⟨_, h2⟩
      exact (intsetFind_eq_zero_iff h w).1 h1 h2

theorem intsetFind_other_witness :
    intsetWF exampleSet ∧ isInt64 (-70000) ∧ (5 : Int) ≠ -70000 ∧
    (-70000 ∈ intsetElems exampleSet ∨ intsetRoom exampleSet (-70000)) ∧
    (intsetFind (intsetAdd exampleSet (-70000)).1 5 = intsetFind exampleSet 5 ∧
    intsetFind (intsetRemove exampleSet (-70000)).1 5 = intsetFind exampleSet 5) :=
  ⟨by decide, by decide, by decide, by decide,
    intsetFind_other exampleSet (-70000) 5 (by decide) (by decide) (by decide) (by decide)⟩

theorem countP_lt_split (L : List Int) (p : Nat) (v : Int) (hp : p ≤ L.length)
    (h1 : ∀ x ∈ L.take p, x < v) (h2 : ∀ x ∈ L.drop p, v < x) :
    L.countP (fun x => decide (x < v)) = p := by
  conv_lhs => rw [← List.take_append_drop p L]
  rw [List.countP_append]
  have e1 : (L.take p).countP (fun x => decide (x < v)) = (L.take p).length := by
    rw [List.countP_eq_length]
    intro x hx
    exact decide_eq_true (h1 x hx)
  have e2 : (L.drop p).countP (fun x => decide (x < v)) = 0 := by
    rw [List.countP_eq_zero]
    intro x hx
    have := h2 x hx
    simp only [decide_eq_true_eq]
    omega
  rw [e1, e2, List.length_take]
  omega

/-- C13. On a well-formed set `intsetSearch` returns 1 and the index of the
value when the value is stored; otherwise it returns 0 and the number of
elements smaller than the value, which is the smallest index at which the
value can be inserted with the order preserved. The result is `(0, 0)` for
the empty set and for a value below the first element, and `(0, length)` for
a value above the last element. -/
theorem intsetSearch_position (is : intset) (v : Int) (h : intsetWF is) :
    (v ∈ intsetElems is →
      (intsetSearch is v).1 = 1 ∧ (intsetSearch is v).2 < is.length ∧
      _intsetGet is (toInt32 (intsetSearch is v).2) = v) ∧
    (v ∉ intsetElems is →
      (intsetSearch is v).1 = 0 ∧
      (intsetSearch is v).2 = (intsetElems is).countP (fun x => decide (x < v)) ∧
      ((intsetElems is).take (intsetSearch is v).2 ++
        v :: (intsetElems is).drop (intsetSearch is v).2).Pairwise (· < ·) ∧
      ∀ q, q < (intsetSearch is v).2 →
        ¬ ((intsetElems is).take q ++ v :: (intsetElems is).drop q).Pairwise (· < ·)) ∧
    (is.length = 0 → intsetSearch is v = (0, 0)) ∧
    (0 < is.length → v < _intsetGet is 0 → intsetSearch is v = (0, 0)) ∧
    (0 < is.length → _intsetGet is (toInt32 (is.length - 1)) < v →
      intsetSearch is v = (0, is.length)) := by
  have hl := intsetWF_length_lt h
  have hsorted := intsetWF_sorted h
  have hlast : (is.length + 4294967295) % 4294967296 = is.length - 1 ∨ is.length = 0 := by omega
  refine ⟨?_, ?_, ?_, ?_, ?_⟩
  · intro hm
    have hs := (intsetSearch_found_iff h v).2 hm
    rcases intsetSearch_spec h v with ⟨_, hp, hg⟩ | ⟨h0, _⟩
    · exact ⟨hs, hp, by rw [toInt32_of_lt (by omega)]; exact hg⟩
    · rw [hs] at h0; exact absurd h0 (by decide)
  · intro hm
    have hs := (intsetSearch_absent_iff h v).2 hm
    obtain ⟨hlo, hhi⟩ := intsetSearch_split h v hs
    have hp : (intsetSearch is v).2 ≤ (intsetElems is).length := by
      rw [intsetElems_length]
      rcases intsetSearch_spec h v with ⟨_, hp, _⟩ | ⟨_, hp, _⟩
      · omega
      · exact hp
    refine ⟨hs, (countP_lt_split _ _ _ hp hlo hhi).symm, pairwise_insert _ _ _ h.2.2.2 hlo hhi, ?_⟩
    intro q hq hpw
    rw [List.pairwise_append] at hpw
    have hq2 : q < (intsetElems is).length := by omega
    have hmem : (intsetElems is)[q] ∈ (intsetElems is).drop q := by
      rw [List.mem_iff_getElem]
      exact ⟨0, by rw [List.length_drop]; omega, by rw [List.getElem_drop]; rfl⟩
    have hgt := (List.pairwise_cons.1 hpw.2.1).1 _ hmem
    have hlt := hlo (intsetElems is)[q] (by
      rw [List.mem_iff_getElem]
      exact ⟨q, by rw [List.length_take]; omega, by rw [List.getElem_take]⟩)
    omega
  · intro h0
    unfold intsetSearch
    simp only
    rw [if_pos h0]
  · intro h0 hv
    have hle : _intsetGet is 0 ≤ _intsetGet is ((is.length - 1 : Nat) : Int) := by
      rcases Nat.eq_zero_or_pos (is.length - 1) with h1 | h1
      · rw [h1]; exact le_refl _
      · exact le_of_lt (hsorted 0 (is.length - 1) h1 (by omega))
    have hl1 : (is.length + 4294967295) % 4294967296 = is.length - 1 := by omega
    unfold intsetSearch
    simp only
    rw [if_neg (by omega), hl1, toInt32_of_lt (by omega), if_neg (by omega), if_pos hv]
  · intro h0 hv
    have hl1 : (is.length + 4294967295) % 4294967296 = is.length - 1 := by omega
    unfold intsetSearch
    simp only
    rw [if_neg (by omega), hl1, if_pos hv]

theorem intsetSearch_position_witness :
    intsetWF exampleSet ∧
    ((5 : Int) ∈ intsetElems exampleSet →
      (intsetSearch exampleSet 5).1 = 1 ∧ (intsetSearch exampleSet 5).2 < exampleSet.length ∧
      _intsetGet exampleSet (toInt32 (intsetSearch exampleSet 5).2) = 5) :=
  ⟨by decide, (intsetSearch_position exampleSet 5 (by decide)).1⟩

/-- C15 (code defect). The byte size `intsetResize` requests is the product
`len * encoding` reduced modulo `2^32`: it is the product whenever that is
below `2^32`, but for 1073741824 elements of 4 bytes, the call `intsetAdd`
makes on a 32-bit set of 1073741823 elements, the request is 0 bytes and not
4294967296. -/
theorem intsetResize_size_wraps (buf : List Nat) :
    (intsetResize { encoding := INTSET_ENC_INT32, length := 1073741823, contents := buf }
      1073741824).contents.length = 0 ∧
    1073741824 * INTSET_ENC_INT32 = 4294967296 ∧
    (∀ (is : intset) (len : Nat), len * is.encoding < 4294967296 →
      (intsetResize is len).contents.length = len * is.encoding) := by
  refine ⟨?_, by decide, ?_⟩
  · rw [intsetResize_contents_length]
    show 1073741824 * INTSET_ENC_INT32 % 4294967296 = 0
    decide
  · intro is len h
    rw [intsetResize_contents_length, Nat.mod_eq_of_lt h]

/-- C16 (code defect). `intsetBlobLen` is 8 plus the product of `length` and
`encoding` reduced modulo `2^32`: it is `8 + length * encoding` whenever the
product is below `2^32`, in particular for every well-formed set, but for a
header with 1073741824 elements of 4 bytes it is 8 and not 4294967304. -/
theorem intsetBlobLen_wraps (buf : List Nat) :
    intsetBlobLen { encoding := INTSET_ENC_INT32, length := 1073741824, contents := buf } = 8 ∧
    8 + 1073741824 * INTSET_ENC_INT32 = 4294967304 ∧
    (∀ is : intset, is.length * is.encoding < 4294967296 →
      intsetBlobLen is = 8 + is.length * is.encoding) ∧
    (∀ is : intset, intsetWF is → intsetBlobLen is = 8 + is.length * is.encoding) := by
  refine ⟨?_, by decide, ?_, ?_⟩
  · show 8 + 1073741824 * INTSET_ENC_INT32 % 4294967296 = 8
    decide
  · intro is h
    unfold intsetBlobLen
    rw [Nat.mod_eq_of_lt h]
  · intro is h
    unfold intsetBlobLen
    rw [Nat.mod_eq_of_lt h.2.2.1]

theorem intsetUpgradeAndAdd_stages (is : intset) (v : Int) :
    intsetUpgradeAndAdd is v =
      intsetUpgradeAndAddFinish is v
        (intsetResize (intsetUpgradeAndAddResizeArg is v) ((is.length + 1) % 4294967296)) := by
  unfold intsetUpgradeAndAdd intsetUpgradeAndAddFinish intsetUpgradeAndAddResizeArg
  rfl

theorem intsetAdd_stages (is : intset) (v : Int)
    (hle : _intsetValueEncoding v ≤ is.encoding) (hs : (intsetSearch is v).1 = 0) :
    intsetAdd is v =
      intsetAddFinish v (intsetSearch is v).2 (intsetResize is ((is.length + 1) % 4294967296)) := by
  unfold intsetAdd intsetAddFinish
  simp only
  rw [if_neg (by omega), if_neg (by rw [hs]; decide)]

theorem intsetRemove_stages (is : intset) (v : Int)
    (h : _intsetValueEncoding v ≤ is.encoding ∧ (intsetSearch is v).1 ≠ 0) :
    intsetRemove is v =
      ({ intsetResize (intsetRemoveResizeArg is (intsetSearch is v).2)
          ((is.length + 4294967295) % 4294967296) with
          length := (is.length + 4294967295) % 4294967296 }, 1) := by
  rw [intsetRemove_eq_of_found is v h]
  unfold intsetRemoveResizeArg
  rfl

/-- C17, as stated, fails: on the 16-bit set holding 4, 5 and 6, the structure
`intsetUpgradeAndAdd` passes to `intsetResize` for 65535 already has the
32-bit encoding in its header, and the structure `intsetRemove` passes to
`intsetResize` for 4 already has the tail moved down over the removed
element (its buffer reads 5, 6, 6). -/
theorem resize_after_modification :
    (exampleSet.encoding < _intsetValueEncoding 65535 ∧
      intsetUpgradeAndAddResizeArg exampleSet 65535 ≠ exampleSet ∧
      (intsetUpgradeAndAddResizeArg exampleSet 65535).encoding = INTSET_ENC_INT32) ∧
    (_intsetValueEncoding 4 ≤ exampleSet.encoding ∧ (intsetSearch exampleSet 4).1 ≠ 0 ∧
      intsetRemoveResizeArg exampleSet (intsetSearch exampleSet 4).2 ≠ exampleSet ∧
      (intsetRemoveResizeArg exampleSet (intsetSearch exampleSet 4).2).contents
        = [5, 0, 6, 0, 6, 0]) := by
  decide

theorem intsetRemoveResizeArg_fields (is : intset) (pos : Nat) :
    (intsetRemoveResizeArg is pos).encoding = is.encoding ∧
    (intsetRemoveResizeArg is pos).length = is.length ∧
    (intsetRemoveResizeArg is pos).contents.length = is.contents.length := by
  unfold intsetRemoveResizeArg
  split
  · exact ⟨intsetMoveTail_encoding _ _ _, intsetMoveTail_length _ _ _,
      intsetMoveTail_contents_length _ _ _⟩
  · exact ⟨rfl, rfl, rfl⟩

/-- C17, amended. On its ordinary insert path `intsetAdd` calls `intsetResize`
on the set as it was passed in. `intsetUpgradeAndAdd` calls it on the set
with the new encoding already stored in the header, the length and the
buffer being those passed in. `intsetRemove` calls it on the set with the
tail already moved down over the removed element, the encoding, the length
and the buffer size being those passed in; nothing has been moved when the
removed element is the last one. -/
theorem resize_order (is : intset) (v : Int) :
    (_intsetValueEncoding v ≤ is.encoding → (intsetSearch is v).1 = 0 →
      intsetAdd is v =
        intsetAddFinish v (intsetSearch is v).2
          (intsetResize is ((is.length + 1) % 4294967296))) ∧
    (intsetUpgradeAndAdd is v =
        intsetUpgradeAndAddFinish is v
          (intsetResize (intsetUpgradeAndAddResizeArg is v) ((is.length + 1) % 4294967296)) ∧
      (intsetUpgradeAndAddResizeArg is v).encoding = _intsetValueEncoding v ∧
      (intsetUpgradeAndAddResizeArg is v).length = is.length ∧
      (intsetUpgradeAndAddResizeArg is v).contents = is.contents) ∧
    (_intsetValueEncoding v ≤ is.encoding ∧ (intsetSearch is v).1 ≠ 0 →
      intsetRemove is v =
        ({ intsetResize (intsetRemoveResizeArg is (intsetSearch is v).2)
            ((is.length + 4294967295) % 4294967296) with
            length := (is.length + 4294967295) % 4294967296 }, 1) ∧
      (intsetRemoveResizeArg is (intsetSearch is v).2).encoding = is.encoding ∧
      (intsetRemoveResizeArg is (intsetSearch is v).2).length = is.length ∧
      (intsetRemoveResizeArg is (intsetSearch is v).2).contents.length = is.contents.length ∧
      ((is.length + 4294967295) % 4294967296 ≤ (intsetSearch is v).2 →
        intsetRemoveResizeArg is (intsetSearch is v).2 = is)) := by
  refine ⟨intsetAdd_stages is v, ⟨intsetUpgradeAndAdd_stages is v, rfl, rfl, rfl⟩, ?_⟩
  intro h
  obtain ⟨h1, h2, h3⟩ := intsetRemoveResizeArg_fields is (intsetSearch is v).2
  refine ⟨intsetRemove_stages is v h, h1, h2, h3, ?_⟩
  intro hlast
  unfold intsetRemoveResizeArg
  rw [if_neg (by omega)]

/-- The length after `intsetAdd` on a well-formed set is at most one more. -/
theorem intsetAdd_length_le {is : intset} (h : intsetWF is) (v : Int) (hv : isInt64 v)
    (hroom : intsetRoom is v) : (intsetAdd is v).1.length ≤ is.length + 1 := by
  by_cases hm : v ∈ intsetElems is
  · rw [intsetAdd_present h v hm]; exact Nat.le_succ _
  · rw [(intsetAdd_absent h v hv hm hroom).2.2.1]

/-- Room for two more elements, at the largest encoding involved, gives room
for each of two adds, in either order. -/
theorem intsetRoom_two {is : intset} (h : intsetWF is) (a b : Int) (ha : isInt64 a)
    (hroom : (is.length + 2) *
      max is.encoding (max (_intsetValueEncoding a) (_intsetValueEncoding b)) < 4294967296) :
    intsetRoom is a ∧ intsetRoom (intsetAdd is a).1 b := by
  have h1 : intsetRoom is a := by
    unfold intsetRoom
    have hle : (is.length + 1) * max is.encoding (_intsetValueEncoding a) ≤
        (is.length + 2) *
          max is.encoding (max (_intsetValueEncoding a) (_intsetValueEncoding b)) :=
      Nat.mul_le_mul (by omega) (by omega)
    omega
  refine ⟨h1, ?_⟩
  unfold intsetRoom
  have hlen := intsetAdd_length_le h a ha h1
  rw [intsetAdd_encoding]
  have hle : ((intsetAdd is a).1.length + 1) *
      max (max is.encoding (_intsetValueEncoding a)) (_intsetValueEncoding b) ≤
      (is.length + 2) *
        max is.encoding (max (_intsetValueEncoding a) (_intsetValueEncoding b)) :=
    Nat.mul_le_mul (by omega) (by omega)
  omega

/-- Two adds on a well-formed set: the result is well-formed and holds the
old values and the two added ones. -/
theorem intsetAdd_twice {is : intset} (h : intsetWF is) (a b : Int) (ha : isInt64 a)
    (hb : isInt64 b)
    (hroom : (is.length + 2) *
      max is.encoding (max (_intsetValueEncoding a) (_intsetValueEncoding b)) < 4294967296) :
    intsetWF (intsetAdd (intsetAdd is a).1 b).1 ∧
    ∀ x, x ∈ intsetElems (intsetAdd (intsetAdd is a).1 b).1 ↔ x ∈ a :: b :: intsetElems is := by
  obtain ⟨r1, r2⟩ := intsetRoom_two h a b ha hroom
  obtain ⟨w1, m1⟩ := intsetAdd_wf h a ha (Or.inr r1)
  obtain ⟨w2, m2⟩ := intsetAdd_wf w1 b hb (Or.inr r2)
  refine ⟨w2, fun x => ?_⟩
  rw [m2, m1, List.mem_cons, List.mem_cons]
  tauto

/-- Below the wrap of the buffer size: on a well-formed set, adding two values
in one order or the other gives sets with the same encoding, the same length
and the same element sequence, also when one or both adds upgrade the
encoding, provided two more elements fit at the largest encoding involved. -/
theorem intsetAdd_comm (is : intset) (a b : Int) (h : intsetWF is) (ha : isInt64 a)
    (hb : isInt64 b)
    (hroom : (is.length + 2) *
      max is.encoding (max (_intsetValueEncoding a) (_intsetValueEncoding b)) < 4294967296) :
    (intsetAdd (intsetAdd is a).1 b).1.encoding = (intsetAdd (intsetAdd is b).1 a).1.encoding ∧
    (intsetAdd (intsetAdd is a).1 b).1.length = (intsetAdd (intsetAdd is b).1 a).1.length ∧
    intsetElems (intsetAdd (intsetAdd is a).1 b).1
      = intsetElems (intsetAdd (intsetAdd is b).1 a).1 := by
  have hroom2 : (is.length + 2) *
      max is.encoding (max (_intsetValueEncoding b) (_intsetValueEncoding a)) < 4294967296 := by
    rw [max_comm (_intsetValueEncoding b)]; exact hroom
  obtain ⟨w1, m1⟩ := intsetAdd_twice h a b ha hb hroom
  obtain ⟨w2, m2⟩ := intsetAdd_twice h b a hb ha hroom2
  have he : intsetElems (intsetAdd (intsetAdd is a).1 b).1
      = intsetElems (intsetAdd (intsetAdd is b).1 a).1 := by
    rw [eq_sort_of_pairwise _ (a :: b :: intsetElems is) w1.2.2.2 m1,
      eq_sort_of_pairwise _ (a :: b :: intsetElems is) w2.2.2.2 (fun x => by
        rw [m2, List.mem_cons, List.mem_cons, List.mem_cons, List.mem_cons]; tauto)]
  refine ⟨?_, ?_, he⟩
  · rw [intsetAdd_encoding, intsetAdd_encoding, intsetAdd_encoding, intsetAdd_encoding]
    omega
  · rw [← intsetElems_length, ← intsetElems_length (intsetAdd (intsetAdd is b).1 a).1, he]

theorem intsetAdd_comm_witness :
    intsetWF exampleSet ∧ isInt64 65535 ∧ isInt64 (-2147483649) ∧
    (exampleSet.length + 2) * max exampleSet.encoding
      (max (_intsetValueEncoding 65535) (_intsetValueEncoding (-2147483649))) < 4294967296 ∧
    ((intsetAdd (intsetAdd exampleSet 65535).1 (-2147483649)).1.encoding
        = (intsetAdd (intsetAdd exampleSet (-2147483649)).1 65535).1.encoding ∧
      (intsetAdd (intsetAdd exampleSet 65535).1 (-2147483649)).1.length
        = (intsetAdd (intsetAdd exampleSet (-2147483649)).1 65535).1.length ∧
      intsetElems (intsetAdd (intsetAdd exampleSet 65535).1 (-2147483649)).1
        = intsetElems (intsetAdd (intsetAdd exampleSet (-2147483649)).1 65535).1) :=
  ⟨by decide, by decide, by decide, by decide,
    intsetAdd_comm exampleSet 65535 (-2147483649) (by decide) (by decide) (by decide)
      (by decide)⟩

/-! ## Header fields after an add, whatever the buffer size -/

theorem intsetAddFinish_eq (v : Int) (pos : Nat) (is1 : intset) :
    intsetAddFinish v pos is1 =
      ({ _intsetSet
            (if pos < is1.length then intsetMoveTail is1 pos ((pos + 1) % 4294967296) else is1)
            (toInt32 pos) v with
          length := ((_intsetSet
            (if pos < is1.length then intsetMoveTail is1 pos ((pos + 1) % 4294967296) else is1)
            (toInt32 pos) v).length + 1) % 4294967296 }, 1) := rfl

theorem with_length_fields (m : intset) (n k : Nat) :
    (({ m with length := n }, k) : intset × Nat).2 = k ∧
    (({ m with length := n }, k) : intset × Nat).1.encoding = m.encoding ∧
    (({ m with length := n }, k) : intset × Nat).1.length = n ∧
    (({ m with length := n }, k) : intset × Nat).1.contents = m.contents :=
  ⟨rfl, rfl, rfl, rfl⟩

theorem ite_moveTail_fields (c : Prop) [Decidable c] (is1 : intset) (a b : Nat) :
    (if c then intsetMoveTail is1 a b else is1).encoding = is1.encoding ∧
    (if c then intsetMoveTail is1 a b else is1).length = is1.length ∧
    (if c then intsetMoveTail is1 a b else is1).contents.length = is1.contents.length := by
  split
  · exact ⟨intsetMoveTail_encoding _ _ _, intsetMoveTail_length _ _ _,
      intsetMoveTail_contents_length _ _ _⟩
  · exact ⟨rfl, rfl, rfl⟩

/-- The header fields and the buffer size after the part of the ordinary
insert path that follows `intsetResize`. -/
theorem intsetAddFinish_fields (v : Int) (pos : Nat) (is1 : intset) :
    (intsetAddFinish v pos is1).2 = 1 ∧
    (intsetAddFinish v pos is1).1.encoding = is1.encoding ∧
    (intsetAddFinish v pos is1).1.length = (is1.length + 1) % 4294967296 ∧
    (intsetAddFinish v pos is1).1.contents.length = is1.contents.length := by
  obtain ⟨m1, m2, m3⟩ := ite_moveTail_fields (pos < is1.length) is1 pos ((pos + 1) % 4294967296)
  rw [intsetAddFinish_eq]
  generalize (if pos < is1.length then intsetMoveTail is1 pos ((pos + 1) % 4294967296)
    else is1) = m at m1 m2 m3 ⊢
  obtain ⟨w1, w2, w3, w4⟩ := with_length_fields (_intsetSet m (toInt32 pos) v)
    (((_intsetSet m (toInt32 pos) v).length + 1) % 4294967296) 1
  refine ⟨w1, ?_, ?_, ?_⟩
  · rw [w2, _intsetSet_encoding, m1]
  · rw [w3, _intsetSet_length, m2]
  · rw [w4, _intsetSet_contents_length, m3]

/-- The ordinary insert path of `intsetAdd` on any set: success, encoding,
length and buffer size of the result. The buffer size is the product that
`intsetResize` computes, reduced modulo `2^32`. -/
theorem intsetAdd_insert_fields (is : intset) (v : Int)
    (hle : _intsetValueEncoding v ≤ is.encoding) (hs : (intsetSearch is v).1 = 0) :
    (intsetAdd is v).2 = 1 ∧
    (intsetAdd is v).1.encoding = is.encoding ∧
    (intsetAdd is v).1.length = (is.length + 1) % 4294967296 ∧
    (intsetAdd is v).1.contents.length
      = (((is.length + 1) % 4294967296) * is.encoding) % 4294967296 := by
  rw [intsetAdd_stages is v hle hs]
  obtain ⟨f1, f2, f3, f4⟩ := intsetAddFinish_fields v (intsetSearch is v).2
    (intsetResize is ((is.length + 1) % 4294967296))
  refine ⟨f1, ?_, ?_, ?_⟩
  · rw [f2, intsetResize_encoding]
  · rw [f3, intsetResize_length]
  · rw [f4, intsetResize_contents_length]

theorem intsetUpgradeLoop_contents_length (c : Nat) (pre : Int) (k : Nat) (t : intset) :
    (intsetUpgradeLoop c pre k t).contents.length = t.contents.length := by
  induction k generalizing t with
  | zero => rfl
  | succ k ih => simp only [intsetUpgradeLoop]; rw [ih, _intsetSet_contents_length]

/-- The upgrade path on a set with a valid encoding and fewer than `2^31`
elements: encoding, length and buffer size of the result. -/
theorem intsetUpgradeAndAdd_fields (is : intset) (v : Int) (he : validEnc is.encoding)
    (hl : is.length < 2147483648) :
    (intsetUpgradeAndAdd is v).encoding = _intsetValueEncoding v ∧
    (intsetUpgradeAndAdd is v).length = is.length + 1 ∧
    (intsetUpgradeAndAdd is v).contents.length
      = ((is.length + 1) * _intsetValueEncoding v) % 4294967296 := by
  refine ⟨intsetUpgradeAndAdd_encoding is v, ?_, ?_⟩
  · rw [intsetUpgradeAndAdd_eq is v he hl]
  · rw [intsetUpgradeAndAdd_eq is v he hl]
    show (_intsetSet _ _ v).contents.length = _
    rw [_intsetSet_contents_length, intsetUpgradeLoop_contents_length,
      intsetResize_contents_length]

theorem encodeFrom_length (base n : Nat) : (encodeFrom base n).length = n * 4 := by
  induction n with
  | zero => rfl
  | succ n ih =>
    simp only [encodeFrom, List.length_append, ih, leEncode_length]
    omega

theorem readBytes_append_left (A B : List Nat) (off k : Nat) (h : off + k ≤ A.length) :
    readBytes (A ++ B) off k = readBytes A off k := by
  apply readBytes_congr
  intro i hi
  exact List.getElem?_append_left (by omega)

theorem readBytes_append_right (A B : List Nat) :
    readBytes (A ++ B) A.length B.length = B := by
  apply List.ext_getElem?
  intro i
  rw [readBytes_getElem?]
  by_cases hi : i < B.length
  · rw [if_pos hi, List.getElem?_append_right (by omega), Nat.add_sub_cancel_left]
  · rw [if_neg hi, List.getElem?_eq_none (by omega)]

theorem readBytes_encodeFrom (base n i : Nat) (hi : i < n) :
    readBytes (encodeFrom base n) (i * 4) 4 = leEncode 4 (base + i) := by
  induction n with
  | zero => omega
  | succ n ih =>
    simp only [encodeFrom]
    rcases Nat.lt_or_ge i n with h | h
    · rw [readBytes_append_left _ _ _ _ (by rw [encodeFrom_length]; omega)]
      exact ih h
    · have hin : i = n := by omega
      have h1 := readBytes_append_right (encodeFrom base n) (leEncode 4 (base + n))
      rw [encodeFrom_length, leEncode_length] at h1
      rw [hin, h1]

theorem rangeSet_get (base n i : Nat) (hi : i < n) (hb : base + n ≤ 2147483648) :
    _intsetGet (rangeSet base n) (i : Int) = ((base + i : Nat) : Int) := by
  unfold _intsetGet
  rw [_intsetGetEncoded_eq, readAt_nat]
  show toSigned 4 (leDecode (readBytes (encodeFrom base n) (i * 4) 4)) = _
  rw [readBytes_encodeFrom base n i hi, leDecode_leEncode]
  unfold toSigned
  norm_num
  omega

theorem rangeSet_wf (base n : Nat) (hn : n * 4 < 4294967296) (hb : base + n ≤ 2147483648) :
    intsetWF (rangeSet base n) := by
  refine ⟨Or.inr (Or.inl rfl), ?_, hn, ?_⟩
  · show (encodeFrom base n).length = n * 4
    exact encodeFrom_length base n
  · rw [intsetElems_eq_listOf_nat _ (by show n ≤ _; omega), listOf_pairwise]
    intro i j hij hj
    have hj2 : j < n := hj
    rw [rangeSet_get base n i (by omega) hb, rangeSet_get base n j hj2 hb]
    omega

theorem rangeSet_mem (base n : Nat) (hn : n ≤ 2147483648) (hb : base + n ≤ 2147483648)
    (x : Int) :
    x ∈ intsetElems (rangeSet base n) ↔ ∃ i, i < n ∧ x = ((base + i : Nat) : Int) := by
  rw [intsetElems_eq_listOf_nat _ (by show n ≤ _; omega), listOf_mem]
  constructor
  · rintro ⟨i, hi, hx⟩
    have hi2 : i < n := hi
    exact ⟨i, hi2, by rw [← hx, rangeSet_get base n i hi2 hb]⟩
  · rintro ⟨i, hi, hx⟩
    exact ⟨i, hi, by rw [hx, rangeSet_get base n i hi hb]⟩

theorem intset_eq_of_fields (a : intset) (e l : Nat) (c : List Nat) (h1 : a.encoding = e)
    (h2 : a.length = l) (h3 : a.contents = c) :
    a = { encoding := e, length := l, contents := c } := by
  cases a
  simp only at h1 h2 h3
  rw [h1, h2, h3]

/-- The ordinary insert path on a well-formed 32-bit set of 1073741823
elements: `intsetResize` computes the size `1073741824 * 4` modulo `2^32`,
which is 0, and the result counts 1073741824 elements over an empty buffer. -/
theorem intsetAdd_wrap {is : intset} (h : intsetWF is) (v : Int)
    (he : is.encoding = INTSET_ENC_INT32) (hlen : is.length = 1073741823)
    (hle : _intsetValueEncoding v ≤ INTSET_ENC_INT32) (hm : v ∉ intsetElems is) :
    intsetAdd is v
      = ({ encoding := INTSET_ENC_INT32, length := 1073741824, contents := [] }, 1) := by
  obtain ⟨f1, f2, f3, f4⟩ := intsetAdd_insert_fields is v (by rw [he]; exact hle)
    ((intsetSearch_absent_iff h v).2 hm)
  rw [hlen] at f3 f4
  rw [he] at f2 f4
  have hc : (intsetAdd is v).1.contents = [] := by
    apply List.length_eq_zero.1
    rw [f4]
    decide
  have hl : (intsetAdd is v).1.length = 1073741824 := by
    rw [f3]
  apply Prod.ext
  · exact intset_eq_of_fields _ _ _ _ f2 hl hc
  · exact f1

/-- The upgrade path on a well-formed 32-bit set of 536870911 elements, for a
value that needs 64 bits: `intsetResize` computes the size `536870912 * 8`
modulo `2^32`, which is 0, and the result counts 536870912 elements over an
empty buffer. -/
theorem intsetAdd_upgrade_wrap {is : intset} (h : intsetWF is) (v : Int)
    (he : is.encoding = INTSET_ENC_INT32) (hlen : is.length = 536870911)
    (hv : _intsetValueEncoding v = INTSET_ENC_INT64) :
    intsetAdd is v
      = ({ encoding := INTSET_ENC_INT64, length := 536870912, contents := [] }, 1) := by
  have hl := intsetWF_length_lt h
  have hgt : is.encoding < _intsetValueEncoding v := by rw [he, hv]; decide
  obtain ⟨f1, f2, f3⟩ := intsetUpgradeAndAdd_fields is v h.1 hl
  rw [hv] at f1 f3
  rw [hlen] at f2 f3
  have hc : (intsetUpgradeAndAdd is v).contents = [] := by
    apply List.length_eq_zero.1
    rw [f3]
    decide
  rw [intsetAdd_upgrade_eq is v hgt]
  apply Prod.ext
  · exact intset_eq_of_fields _ _ _ _ f1 f2 hc
  · rfl

/-- A set with an empty buffer reads 0 at every position. -/
theorem _intsetGet_nil (is : intset) (pos : Int) (hc : is.contents = []) :
    _intsetGet is pos = 0 := by
  unfold _intsetGet
  rw [_intsetGetEncoded_eq, hc]
  have hr : readAt [] pos (encWidth (is.encoding % 256)) = [] := by
    unfold readAt readBytes
    split
    · rw [List.drop_nil, List.take_nil]
    · rfl
  rw [hr]
  unfold toSigned leDecode
  rcases encWidth_cases (is.encoding % 256) with h | h | h <;> rw [h] <;> decide

theorem intsetAddAll_cons (is : intset) (v : Int) (vs : List Int) :
    intsetAddAll is (v :: vs) =
      ((intsetAddAll (intsetAdd is v).1 vs).1,
        (intsetAdd is v).2 + (intsetAddAll (intsetAdd is v).1 vs).2) := rfl

theorem intsetAddAll_append_single (is : intset) (xs : List Int) (y : Int) :
    intsetAddAll is (xs ++ [y]) =
      ((intsetAdd (intsetAddAll is xs).1 y).1,
        (intsetAddAll is xs).2 + (intsetAdd (intsetAddAll is xs).1 y).2) := by
  induction xs generalizing is with
  | nil => simp only [List.nil_append, intsetAddAll, Nat.add_zero, Nat.zero_add]
  | cons x xs ih =>
    rw [List.cons_append, intsetAddAll_cons, intsetAddAll_cons, ih, Nat.add_assoc]

theorem intsetAddAll_fst_eq_foldl (is : intset) (vs : List Int) :
    (intsetAddAll is vs).1 = vs.foldl (fun s v => (intsetAdd s v).1) is := by
  induction vs generalizing is with
  | nil => rfl
  | cons v vs ih =>
    simp only [intsetAddAll, List.foldl_cons]
    exact ih _

theorem runOps_map_add (vs : List Int) :
    runOps (vs.map IntsetOp.add) = (intsetAddAll intsetNew vs).1 := by
  rw [intsetAddAll_fst_eq_foldl]
  unfold runOps
  rw [List.foldl_map]
  rfl

theorem rangeValues_succ (base n : Nat) :
    rangeValues base (n + 1) = rangeValues base n ++ [((base + n : Nat) : Int)] := by
  unfold rangeValues
  rw [List.range_succ, List.map_append]
  rfl

theorem rangeValues_mem (base n : Nat) (x : Int) :
    x ∈ rangeValues base n ↔ ∃ i, i < n ∧ x = ((base + i : Nat) : Int) := by
  unfold rangeValues
  simp only [List.mem_map, List.mem_range]
  constructor
  · rintro ⟨i, hi, hx⟩; exact ⟨i, hi, hx.symm⟩
  · rintro ⟨i, hi, hx⟩; exact ⟨i, hi, hx.symm⟩

theorem _intsetValueEncoding_int32 (v : Int) (h1 : 32768 ≤ v) (h2 : v ≤ 2147483647) :
    _intsetValueEncoding v = INTSET_ENC_INT32 := by
  unfold _intsetValueEncoding INT32_MIN INT32_MAX INT16_MIN INT16_MAX
  rw [if_neg (by omega), if_pos (by omega)]

/-- Adding the values `base, base + 1, ..` to the empty set, as long as the
byte size of the buffer does not wrap: the result is a well-formed 32-bit set
holding the values, and every add reported success. -/
theorem intsetAddAll_range (base n : Nat) (hb : 32768 ≤ base) (hn : n ≤ 1073741823)
    (hbn : base + n ≤ 2147483648) :
    intsetWF (intsetAddAll intsetNew (rangeValues base n)).1 ∧
    (intsetAddAll intsetNew (rangeValues base n)).1.length = n ∧
    (0 < n → (intsetAddAll intsetNew (rangeValues base n)).1.encoding = INTSET_ENC_INT32) ∧
    (intsetAddAll intsetNew (rangeValues base n)).1.encoding ≤ INTSET_ENC_INT32 ∧
    (intsetAddAll intsetNew (rangeValues base n)).2 = n ∧
    ∀ x, x ∈ intsetElems (intsetAddAll intsetNew (rangeValues base n)).1 ↔
      ∃ i, i < n ∧ x = ((base + i : Nat) : Int) := by
  induction n with
  | zero =>
    refine ⟨intsetNew_wf, rfl, fun h => absurd h (Nat.lt_irrefl 0), ?_, rfl, ?_⟩
    · show INTSET_ENC_INT16 ≤ INTSET_ENC_INT32
      decide
    intro x
    constructor
    · intro hx; exact absurd hx (by simp [intsetElems, intsetNew, rangeValues, intsetAddAll])
    · rintro ⟨i, hi, _⟩; omega
  | succ n ih =>
    obtain ⟨w, hl, _, hle, hc, hmem⟩ := ih (by omega) (by omega)
    rw [rangeValues_succ, intsetAddAll_append_single]
    generalize intsetAddAll intsetNew (rangeValues base n) = t at w hl hle hc hmem ⊢
    have hv : isInt64 ((base + n : Nat) : Int) := by
      unfold isInt64 INT64_MIN INT64_MAX
      constructor <;> omega
    have henc : _intsetValueEncoding ((base + n : Nat) : Int) = INTSET_ENC_INT32 :=
      _intsetValueEncoding_int32 _ (by omega) (by omega)
    have habs : ((base + n : Nat) : Int) ∉ intsetElems t.1 := by
      rw [hmem]
      rintro ⟨i, hi, hx⟩
      omega
    have hmax : max t.1.encoding (_intsetValueEncoding ((base + n : Nat) : Int))
        = INTSET_ENC_INT32 := by
      rw [henc]; exact max_eq_right hle
    have hroom : intsetRoom t.1 ((base + n : Nat) : Int) := by
      unfold intsetRoom
      rw [hmax, hl]
      unfold INTSET_ENC_INT32
      omega
    obtain ⟨a1, a2, a3, a4, a5⟩ := intsetAdd_absent w _ hv habs hroom
    rw [hmax] at a2
    refine ⟨a4, by rw [a3, hl], fun _ => a2, le_of_eq a2, by rw [a1, hc], ?_⟩
    intro x
    show x ∈ intsetElems (intsetAdd t.1 ((base + n : Nat) : Int)).1 ↔ _
    rw [a5, hmem]
    constructor
    · rintro (hx | ⟨i, hi, hx⟩)
      · exact ⟨n, by omega, hx⟩
      · exact ⟨i, by omega, hx⟩
    · rintro ⟨i, hi, hx⟩
      rcases Nat.lt_or_ge i n with h | h
      · exact Or.inr ⟨i, h, hx⟩
      · left
        have : i = n := by omega
        rw [hx, this]

/-- Adding the 1073741824 values from 100000 on to the empty set: the last
add makes `intsetResize` compute the size `1073741824 * 4` modulo `2^32`, so
the result counts 1073741824 elements over an empty buffer, every add having
reported success. -/
theorem intsetAddAll_wrap :
    intsetAddAll intsetNew (rangeValues 100000 1073741824)
      = ({ encoding := INTSET_ENC_INT32, length := 1073741824, contents := [] }, 1073741824) := by
  obtain ⟨w, hl, he, _, hc, hmem⟩ := intsetAddAll_range 100000 1073741823 (by decide)
    (le_refl _) (by decide)
  rw [show (1073741824 : Nat) = 1073741823 + 1 from rfl, rangeValues_succ,
    intsetAddAll_append_single]
  generalize intsetAddAll intsetNew (rangeValues 100000 1073741823) = t at w hl he hc hmem ⊢
  have habs : (((100000 + 1073741823 : Nat) : Nat) : Int) ∉ intsetElems t.1 := by
    rw [hmem]
    rintro ⟨i, hi, hx⟩
    omega
  rw [intsetAdd_wrap w _ (he (by decide)) hl
    (le_of_eq (_intsetValueEncoding_int32 _ (by decide) (by decide))) habs, hc]

theorem intsetElems_head (is : intset) (h : 0 < is.length) :
    (intsetElems is)[0]? = some (_intsetGet is (toInt32 0)) := by
  rw [intsetElems_eq_listOf, listOf_getElem?, if_pos h]

theorem intsetElems_nil_mem (is : intset) (hc : is.contents = []) (x : Int)
    (hx : x ∈ intsetElems is) : x = 0 := by
  rw [intsetElems_eq_listOf, listOf_mem] at hx
  obtain ⟨i, _, hi⟩ := hx
  rw [← hi]
  exact _intsetGet_nil is _ hc

theorem rangeSet_absent (base n : Nat) (hn : n ≤ 2147483648) (hb : base + n ≤ 2147483648)
    (x : Int) (hx : x < base ∨ (base : Int) + n ≤ x) : x ∉ intsetElems (rangeSet base n) := by
  rw [rangeSet_mem base n hn hb]
  rintro ⟨i, hi, h⟩
  omega

theorem rangeValues_isInt64 (base n : Nat) (hb : base + n ≤ 2147483648) :
    ∀ v ∈ rangeValues base n, isInt64 v := by
  intro v hv
  rw [rangeValues_mem] at hv
  obtain ⟨i, hi, hx⟩ := hv
  unfold isInt64 INT64_MIN INT64_MAX
  constructor <;> omega

/-- C3 (code defect, the one of C15). On the well-formed 32-bit set that holds
the 1073741823 values from 100000 on, `intsetAdd` of 1073841823 makes
`intsetResize` request 0 bytes for the elements, the value is not stored, and
`intsetFind` of it on the returned set is 0. -/
theorem intsetFind_intsetAdd_wraps :
    intsetWF (rangeSet 100000 1073741823) ∧ isInt64 1073841823 ∧
    intsetAdd (rangeSet 100000 1073741823) 1073841823
      = ({ encoding := INTSET_ENC_INT32, length := 1073741824, contents := [] }, 1) ∧
    intsetFind (intsetAdd (rangeSet 100000 1073741823) 1073841823).1 1073841823 = 0 := by
  have w := rangeSet_wf 100000 1073741823 (by decide) (by decide)
  have hadd := intsetAdd_wrap w 1073841823 rfl rfl (by decide)
    (rangeSet_absent 100000 1073741823 (by decide) (by decide) _ (Or.inr (by decide)))
  refine ⟨w, by decide, hadd, ?_⟩
  rw [hadd]
  decide

/-- C18 (code defect, the one of C15). On the well-formed 32-bit set that
holds the 1073741823 values from 100000 on, `intsetFind` of 100005 is 1, and
it is 0 on the set that `intsetAdd` of the other value 1073841823 returns:
`intsetResize` has requested 0 bytes for the elements. -/
theorem intsetFind_other_wraps :
    intsetWF (rangeSet 100000 1073741823) ∧ isInt64 1073841823 ∧
    (100005 : Int) ≠ 1073841823 ∧
    intsetFind (rangeSet 100000 1073741823) 100005 = 1 ∧
    intsetFind (intsetAdd (rangeSet 100000 1073741823) 1073841823).1 100005 = 0 := by
  have w := rangeSet_wf 100000 1073741823 (by decide) (by decide)
  have hadd := intsetAdd_wrap w 1073841823 rfl rfl (by decide)
    (rangeSet_absent 100000 1073741823 (by decide) (by decide) _ (Or.inr (by decide)))
  refine ⟨w, by decide, by decide, ?_, ?_⟩
  · rw [intsetFind_eq_one_iff w, rangeSet_mem 100000 1073741823 (by decide) (by decide)]
    exact ⟨5, by decide, by decide⟩
  · rw [hadd]
    decide

/-- C21 (code defect, the one of C15). On the well-formed 32-bit set that
holds the 1073741823 values from 100000 on, adding 1073841823 and then -5
gives a set that reads -5 at index 0, and adding -5 and then 1073841823 gives
a set that reads 0 there: the first add of each order makes `intsetResize`
request 0 bytes for the elements, and the element sequences differ. -/
theorem intsetAdd_comm_wraps :
    intsetWF (rangeSet 100000 1073741823) ∧ isInt64 1073841823 ∧ isInt64 (-5) ∧
    (intsetElems (intsetAdd (intsetAdd (rangeSet 100000 1073741823) 1073841823).1 (-5)).1)[0]?
      = some (-5) ∧
    (intsetElems (intsetAdd (intsetAdd (rangeSet 100000 1073741823) (-5)).1 1073841823).1)[0]?
      = some 0 ∧
    intsetElems (intsetAdd (intsetAdd (rangeSet 100000 1073741823) 1073841823).1 (-5)).1
      ≠ intsetElems (intsetAdd (intsetAdd (rangeSet 100000 1073741823) (-5)).1 1073841823).1 := by
  have w := rangeSet_wf 100000 1073741823 (by decide) (by decide)
  have ha := intsetAdd_wrap w 1073841823 rfl rfl (by decide)
    (rangeSet_absent 100000 1073741823 (by decide) (by decide) _ (Or.inr (by decide)))
  have hb := intsetAdd_wrap w (-5) rfl rfl (by decide)
    (rangeSet_absent 100000 1073741823 (by decide) (by decide) _ (Or.inl (by decide)))
  have h1 : (intsetElems (intsetAdd (intsetAdd (rangeSet 100000 1073741823)
      1073841823).1 (-5)).1)[0]? = some (-5) := by
    rw [ha, intsetElems_head _ (by decide)]
    decide
  have h2 : (intsetElems (intsetAdd (intsetAdd (rangeSet 100000 1073741823)
      (-5)).1 1073841823).1)[0]? = some 0 := by
    rw [hb, intsetElems_head _ (by decide)]
    decide
  refine ⟨w, by decide, by decide, h1, h2, ?_⟩
  intro heq
  rw [heq, h2] at h1
  exact absurd h1 (by decide)

/-- C8 (code defect, the one of C15). On the well-formed 32-bit set that holds
the 536870911 values from 100000 on, `intsetAdd` of 2147483648, which needs 64
bits, makes `intsetResize` request 0 bytes for the elements: the element of
index 0, which read 100000, reads 0 afterwards, and the element sequence is
not the old one followed by the value. -/
theorem intsetAdd_upgrade_wraps :
    intsetWF (rangeSet 100000 536870911) ∧ isInt64 2147483648 ∧
    (rangeSet 100000 536870911).encoding < _intsetValueEncoding 2147483648 ∧
    intsetAdd (rangeSet 100000 536870911) 2147483648
      = ({ encoding := INTSET_ENC_INT64, length := 536870912, contents := [] }, 1) ∧
    _intsetGet (rangeSet 100000 536870911) (toInt32 0) = 100000 ∧
    _intsetGet (intsetAdd (rangeSet 100000 536870911) 2147483648).1 (toInt32 0) = 0 ∧
    intsetElems (intsetAdd (rangeSet 100000 536870911) 2147483648).1
      ≠ intsetElems (rangeSet 100000 536870911) ++ [2147483648] := by
  have w := rangeSet_wf 100000 536870911 (by decide) (by decide)
  have hadd := intsetAdd_upgrade_wrap w 2147483648 rfl rfl (by decide)
  refine ⟨w, by decide, by decide, hadd, ?_, ?_, ?_⟩
  · rw [toInt32_of_lt (by decide)]
    exact rangeSet_get 100000 536870911 0 (by decide) (by decide)
  · rw [hadd]
    decide
  · intro heq
    have hmem : (2147483648 : Int) ∈
        intsetElems (intsetAdd (rangeSet 100000 536870911) 2147483648).1 := by
      rw [heq, List.mem_append, List.mem_singleton]
      exact Or.inr rfl
    rw [hadd] at hmem
    have := intsetElems_nil_mem _ rfl _ hmem
    exact absurd this (by decide)

/-- C1 (code defect, the one of C15). The sequence of the 1073741824 calls
`intsetAdd` of 100000, 100001, .. on the set `intsetNew` creates ends with a
set that counts 1073741824 elements over an empty buffer, the last call
having made `intsetResize` request 0 bytes: its elements at the indexes 0 and
1 both read 0, so they are not in strictly ascending order. -/
theorem runOps_sorted_wraps :
    (∀ op ∈ (rangeValues 100000 1073741824).map IntsetOp.add, isInt64 op.value) ∧
    runOps ((rangeValues 100000 1073741824).map IntsetOp.add)
      = { encoding := INTSET_ENC_INT32, length := 1073741824, contents := [] } ∧
    ¬ (intsetElems (runOps ((rangeValues 100000 1073741824).map IntsetOp.add))).Pairwise
      (· < ·) := by
  have hrun : runOps ((rangeValues 100000 1073741824).map IntsetOp.add)
      = { encoding := INTSET_ENC_INT32, length := 1073741824, contents := [] } := by
    rw [runOps_map_add, intsetAddAll_wrap]
  refine ⟨?_, hrun, ?_⟩
  · intro op hop
    rw [List.mem_map] at hop
    obtain ⟨v, hv, hop⟩ := hop
    rw [← hop]
    exact rangeValues_isInt64 100000 1073741824 (by decide) v hv
  · rw [hrun]
    intro hp
    rw [List.pairwise_iff_getElem] at hp
    have h01 := hp 0 1 (by rw [intsetElems_length]; decide) (by rw [intsetElems_length]; decide)
      (by decide)
    rw [intsetElems_getElem, intsetElems_getElem, _intsetGet_nil _ _ rfl,
      _intsetGet_nil _ _ rfl] at h01
    exact absurd h01 (by decide)

/-- C7 (code defect, the one of C15). Adding the 1073741824 values 100000,
100001, .. one by one to the set `intsetNew` creates gives a set whose
reading with `intsetGet` at index 0 is 0, a value that is not in the input:
the last add has made `intsetResize` request 0 bytes for the elements. So the
readings are not the ascending list of the distinct values of the input. -/
theorem intsetAddAll_elems_wraps :
    (∀ v ∈ rangeValues 100000 1073741824, isInt64 v) ∧
    intsetGet (intsetAddAll intsetNew (rangeValues 100000 1073741824)).1 0 0 = (1, 0) ∧
    (0 : Int) ∉ rangeValues 100000 1073741824 ∧
    (List.range (intsetAddAll intsetNew (rangeValues 100000 1073741824)).1.length).map
        (fun i => intsetGet (intsetAddAll intsetNew (rangeValues 100000 1073741824)).1 i 0)
      ≠ ((rangeValues 100000 1073741824).toFinset.sort (· ≤ ·)).map
          (fun x => ((1 : Nat), x)) := by
  have h0 : (0 : Int) ∉ rangeValues 100000 1073741824 := by
    rw [rangeValues_mem]
    rintro ⟨i, _, hx⟩
    omega
  have hget : intsetGet (intsetAddAll intsetNew (rangeValues 100000 1073741824)).1 0 0
      = (1, 0) := by
    rw [intsetAddAll_wrap]
    decide
  refine ⟨rangeValues_isInt64 100000 1073741824 (by decide), hget, h0, ?_⟩
  intro heq
  have hmem : ((1 : Nat), (0 : Int)) ∈
      (List.range (intsetAddAll intsetNew (rangeValues 100000 1073741824)).1.length).map
        (fun i => intsetGet (intsetAddAll intsetNew (rangeValues 100000 1073741824)).1 i 0) := by
    rw [List.mem_map]
    refine ⟨0, ?_, hget⟩
    rw [List.mem_range, intsetAddAll_wrap]
    decide
  rw [heq, List.mem_map] at hmem
  obtain ⟨x, hx, hpair⟩ := hmem
  rw [Finset.mem_sort, List.mem_toFinset] at hx
  have hx0 : x = 0 := (Prod.mk.inj hpair).2
  rw [hx0] at hx
  exact h0 hx

end Intset
